import Mathlib

/-!
Verification development for the SomeSQL embeddable tabular data engine.

The repository ships the public declaration surface (`src/node/index.d.ts`)
and an example consumer (`src/examples/react-playground/src/store.ts`); the
executable engine itself is not part of the checked-in sources.  The
definitions below therefore embed the engine as described by the design
specification and by the doc comments of the declaration file: rows are
association lists from column names to dynamic values, a table couples a
declared data model with its row collection, and the backend execution
engine is the state machine `execQuery` (resolve table, compile the
condition tree, resolve joins, validate filters, then apply the operation,
ordering, pagination and the filter pipeline).
-/

namespace SomeSQLSpec

/-- Modelled from the spec: dynamic values stored in rows.  The declaration
file types row cells as `any`; the data model restricts them to strings,
integers, booleans, arrays, maps and null/undefined (floats carry no claim
in this development and are folded into the integer case). -/
inductive Value where
  | vNull
  | vInt (n : Int)
  | vStr (s : String)
  | vBool (b : Bool)
  | vArr (xs : List Value)
  | vMap (kvs : List (String × Value))

/-- Rows are mappings from column name to a coerced value (`DBRow` in the
declaration file), embedded as association lists. -/
abbrev Row := List (String × Value)

/-- Look a column up in a row; `none` models a missing/undefined column. -/
def lookupRow (r : Row) (k : String) : Option Value :=
  match r with
  | [] => none
  | kv :: rest => if kv.1 = k then some kv.2 else lookupRow rest k

/-- Modelled from the spec: the logical column types of a data model
declaration (`DataModel.type` in the declaration file, an open union of
string tags). -/
inductive ColType where
  | tString
  | tInt
  | tFloat
  | tArray
  | tMap
  | tBool
  | tUuid
  | tBlob
  | tOther (tag : String)
deriving DecidableEq

/-- Column declaration, mirroring the `DataModel` interface: name, logical
type, optional default value and constraint props such as "pk" / "ai". -/
structure DataModel where
  key : String
  type : ColType
  default : Option Value := none
  props : List String := []

/-- Modelled from the spec: the per-type default used when a column is reset
or no declared default exists. -/
def typeDefault : ColType → Value
  | .tString => .vStr ""
  | .tInt => .vInt 0
  | .tFloat => .vInt 0
  | .tArray => .vArr []
  | .tMap => .vMap []
  | .tBool => .vBool false
  | .tUuid => .vStr ""
  | .tBlob => .vNull
  | .tOther _ => .vNull

/-- Default applied to a missing column: the declared default when present,
otherwise the type default. -/
def columnDefault (c : DataModel) : Value :=
  c.default.getD (typeDefault c.type)

/-- Does a value already have the declared type?  Used by coercion. -/
def typeMatches : ColType → Value → Bool
  | .tString, .vStr _ => true
  | .tInt, .vInt _ => true
  | .tFloat, .vInt _ => true
  | .tArray, .vArr _ => true
  | .tMap, .vMap _ => true
  | .tBool, .vBool _ => true
  | .tUuid, .vStr _ => true
  | .tBlob, _ => true
  | .tOther _, _ => true
  | _, _ => false

/-- Modelled from the spec: coercion of one cell against its declared
column.  A value of the declared type is kept; a value that cannot be cast
is resolved by substituting the column default rather than failing the row
(CoercionError handling of the error design). -/
def coerceValue (c : DataModel) (v : Value) : Value :=
  if typeMatches c.type v then v else columnDefault c

/-- Modelled from the spec: ingestion of a row-like argument against the
declared model.  Values not present in the model are dropped, missing
values receive the column default, present values are type coerced.  The
result always lists the model columns in declaration order. -/
def coerceRow (model : List DataModel) (r : Row) : Row :=
  model.map (fun c =>
    match lookupRow r c.key with
    | some v => (c.key, coerceValue c v)
    | none => (c.key, columnDefault c))

/-- Modelled from the spec: a column declaration is the primary key when its
props carry the "pk" flag (the example store uses the form "pk()"). -/
def isPkCol (c : DataModel) : Bool :=
  c.props.any (fun p => p = "pk" || p = "pk()")

/-- Primary-key column of a model: the first column flagged "pk", when one
is declared. -/
def pkCol (model : List DataModel) : Option DataModel :=
  model.find? isPkCol

mutual

/-- Boolean equality of dynamic values, used by the equality and membership
operators of the where evaluator. -/
def valueBeq : Value → Value → Bool
  | .vNull, .vNull => true
  | .vInt a, .vInt b => a == b
  | .vStr a, .vStr b => a == b
  | .vBool a, .vBool b => a == b
  | .vArr a, .vArr b => valueBeqList a b
  | .vMap a, .vMap b => valueBeqKV a b
  | _, _ => false

def valueBeqList : List Value → List Value → Bool
  | [], [] => true
  | a :: as, b :: bs => valueBeq a b && valueBeqList as bs
  | _, _ => false

def valueBeqKV : List (String × Value) → List (String × Value) → Bool
  | [], [] => true
  | a :: as, b :: bs => a.1 == b.1 && valueBeq a.2 b.2 && valueBeqKV as bs
  | _, _ => false

end

/-- Compiled comparison operators of a where leaf. -/
inductive Op where
  | opEq
  | opNeq
  | opGt
  | opLt
  | opGte
  | opLte
  | opIn
  | opLike
deriving DecidableEq

/-- Modelled from the spec: recognizing the operator strings accepted by the
where surface; a malformed operator is rejected at query compilation. -/
def compileOp : String → Option Op
  | "=" => some .opEq
  | "!=" => some .opNeq
  | ">" => some .opGt
  | "<" => some .opLt
  | ">=" => some .opGte
  | "<=" => some .opLte
  | "IN" => some .opIn
  | "LIKE" => some .opLike
  | _ => none

/-- Does the string `pat` occur inside `s`?  Used for the LIKE operator. -/
def strContains (s pat : String) : Bool :=
  decide ((s.splitOn pat).length ≥ 2) || pat == ""

/-- Modelled from the spec: type-aware comparison of a row value `a` against
the leaf comparison value `b`: numeric compare for integers, substring
match for LIKE, membership for IN against a provided list. -/
def valueTest (op : Op) (a b : Value) : Bool :=
  match op with
  | .opEq => valueBeq a b
  | .opNeq => !(valueBeq a b)
  | .opGt =>
    match a, b with
    | .vInt x, .vInt y => decide (x > y)
    | _, _ => false
  | .opLt =>
    match a, b with
    | .vInt x, .vInt y => decide (x < y)
    | _, _ => false
  | .opGte =>
    match a, b with
    | .vInt x, .vInt y => decide (x ≥ y)
    | _, _ => false
  | .opLte =>
    match a, b with
    | .vInt x, .vInt y => decide (x ≤ y)
    | _, _ => false
  | .opIn =>
    match b with
    | .vArr xs => xs.any (fun x => valueBeq a x)
    | _ => false
  | .opLike =>
    match a, b with
    | .vStr s, .vStr pat => strContains s pat
    | _, _ => false

/-- Connectors joining sibling condition nodes. -/
inductive Connector where
  | cAnd
  | cOr
deriving DecidableEq

/-- Compiled condition tree: a leaf triple or a left-associative sequence of
sibling nodes joined by and/or connectors (grouping is by nesting). -/
inductive Cond where
  | leaf (col : String) (op : Op) (v : Value)
  | group (first : Cond) (rest : List (Connector × Cond))

/-- Modelled from the spec: evaluate one leaf against a candidate row.
Comparing against a missing column always yields false except for an
explicit null-equality check. -/
def evalLeaf (r : Row) (col : String) (op : Op) (v : Value) : Bool :=
  match lookupRow r col with
  | some a => valueTest op a v
  | none =>
    match op, v with
    | .opEq, .vNull => true
    | _, _ => false

mutual

/-- Modelled from the spec: recursive evaluation of a condition tree against
a candidate row.  Sequences of siblings are folded strictly left to right
with no operator precedence: each connector combines the accumulated truth
value with its node's truth value. -/
def evalCond (r : Row) : Cond → Bool
  | .leaf col op v => evalLeaf r col op v
  | .group first rest => evalConnected r (evalCond r first) rest

def evalConnected (r : Row) (acc : Bool) : List (Connector × Cond) → Bool
  | [] => acc
  | (.cAnd, c) :: rest => evalConnected r (acc && evalCond r c) rest
  | (.cOr, c) :: rest => evalConnected r (acc || evalCond r c) rest

end

/-- Raw condition tree as handed to the `where` builder call: operator and
connector positions are plain strings that still need validation. -/
inductive CondRaw where
  | leaf (col : String) (op : String) (v : Value)
  | group (first : CondRaw) (rest : List (String × CondRaw))

/-- Errors surfaced by the engine; every error carries a human-readable
message. -/
structure QErr where
  msg : String
deriving DecidableEq

mutual

/-- Modelled from the spec: compiling a raw condition tree, rejecting
malformed operators and connectors before any row is visited. -/
def compileCond : CondRaw → Except QErr Cond
  | .leaf col op v =>
    match compileOp op with
    | some o => .ok (.leaf col o v)
    | none => .error ⟨"invalid operator in where condition: " ++ op⟩
  | .group first rest =>
    match compileCond first with
    | .error e => .error e
    | .ok f =>
      match compileConnected rest with
      | .error e => .error e
      | .ok rs => .ok (.group f rs)

def compileConnected : List (String × CondRaw) → Except QErr (List (Connector × Cond))
  | [] => .ok []
  | (conn, c) :: rest =>
    match (if conn = "and" then some Connector.cAnd
           else if conn = "or" then some Connector.cOr else none) with
    | none => .error ⟨"invalid connector in where condition: " ++ conn⟩
    | some cn =>
      match compileCond c with
      | .error e => .error e
      | .ok cc =>
        match compileConnected rest with
        | .error e => .error e
        | .ok rs => .ok ((cn, cc) :: rs)

end

/-- Direction of an `orderBy` key, the "asc" / "desc" tags of the builder
surface. -/
inductive OrderDir where
  | asc
  | desc
deriving DecidableEq

/-- Modelled from the spec: the sort key a value contributes to ordering.
Values are ranked by type, integers compare numerically, strings compare
lexicographically; composite values of equal rank tie. -/
structure SortKey where
  rank : Nat
  ikey : Int
  skey : List Char
deriving DecidableEq

/-- Lexicographic comparison of character lists, the string leg of the
ordering comparator. -/
def charListLe : List Char → List Char → Bool
  | [], _ => true
  | _ :: _, [] => false
  | a :: as, b :: bs => if a = b then charListLe as bs else decide (a < b)

/-- Comparison of sort keys: type rank first, then the numeric leg, then the
string leg. -/
def keyLe (k1 k2 : SortKey) : Bool :=
  decide (k1.rank < k2.rank ∨ (k1.rank = k2.rank ∧
    (k1.ikey < k2.ikey ∨ (k1.ikey = k2.ikey ∧ charListLe k1.skey k2.skey = true))))

/-- Sort key of one (possibly missing) row value. -/
def sortKeyOf : Option Value → SortKey
  | none => ⟨0, 0, []⟩
  | some .vNull => ⟨1, 0, []⟩
  | some (.vBool b) => ⟨2, if b then 1 else 0, []⟩
  | some (.vInt n) => ⟨3, n, []⟩
  | some (.vStr s) => ⟨4, 0, s.data⟩
  | some (.vArr _) => ⟨5, 0, []⟩
  | some (.vMap _) => ⟨6, 0, []⟩

/-- Modelled from the spec: the multi-key row comparator of `orderBy`.
Earlier keys take priority; a later key only decides ties of all earlier
keys; each key compares ascending or descending per its direction. -/
def rowLeBy : List (String × OrderDir) → Row → Row → Bool
  | [], _, _ => true
  | (c, d) :: rest, r1, r2 =>
    let k1 := sortKeyOf (lookupRow r1 c)
    let k2 := sortKeyOf (lookupRow r2 c)
    if k1 = k2 then rowLeBy rest r1 r2
    else match d with
      | .asc => keyLe k1 k2
      | .desc => keyLe k2 k1

theorem charListLe_refl : ∀ a : List Char, charListLe a a = true := by
  intro a
  induction a with
  | nil => rfl
  | cons x as ih => simpa [charListLe] using ih

theorem charListLe_total : ∀ a b : List Char, charListLe a b = true ∨ charListLe b a = true := by
  intro a
  induction a with
  | nil => intro b; left; rfl
  | cons x as ih =>
    intro b
    cases b with
    | nil => right; rfl
    | cons y bs =>
      by_cases hxy : x = y
      · subst hxy
        rcases ih bs with h | h
        · left; simpa [charListLe] using h
        · right; simpa [charListLe] using h
      · rcases lt_or_gt_of_ne hxy with h | h
        · left; simp [charListLe, hxy, h]
        · right; simp [charListLe, Ne.symm hxy, h]

theorem charListLe_trans : ∀ a b c : List Char,
    charListLe a b = true → charListLe b c = true → charListLe a c = true := by
  intro a
  induction a with
  | nil => intro b c _ _; rfl
  | cons x as ih =>
    intro b c hab hbc
    cases b with
    | nil => simp [charListLe] at hab
    | cons y bs =>
      cases c with
      | nil => simp [charListLe] at hbc
      | cons z cs =>
        by_cases hxy : x = y <;> by_cases hyz : y = z
        · subst hxy; subst hyz
          simp only [charListLe, if_pos rfl] at *
          exact ih _ _ hab hbc
        · subst hxy
          simp only [charListLe, if_pos rfl, if_neg hyz] at *
          simp [hyz, hbc]
        · subst hyz
          simp only [charListLe, if_pos rfl, if_neg hxy] at *
          simp [hxy, hab]
        · simp only [charListLe, if_neg hxy, if_neg hyz, decide_eq_true_eq] at hab hbc
          have hxz : x < z := lt_trans hab hbc
          simp [charListLe, ne_of_lt hxz, hxz]

theorem charListLe_antisymm : ∀ a b : List Char,
    charListLe a b = true → charListLe b a = true → a = b := by
  intro a
  induction a with
  | nil =>
    intro b _ hba
    cases b with
    | nil => rfl
    | cons y bs => simp [charListLe] at hba
  | cons x as ih =>
    intro b hab hba
    cases b with
    | nil => simp [charListLe] at hab
    | cons y bs =>
      by_cases hxy : x = y
      · subst hxy
        simp only [charListLe, if_pos rfl] at hab hba
        rw [ih bs hab hba]
      · simp only [charListLe, if_neg hxy, if_neg (Ne.symm hxy), decide_eq_true_eq] at hab hba
        exact absurd (lt_trans hab hba) (lt_irrefl x)

theorem keyLe_total (k1 k2 : SortKey) : keyLe k1 k2 = true ∨ keyLe k2 k1 = true := by
  simp only [keyLe, decide_eq_true_eq]
  by_cases hr : k1.rank = k2.rank
  · by_cases hi : k1.ikey = k2.ikey
    · rcases charListLe_total k1.skey k2.skey with h | h
      · left; exact Or.inr ⟨hr, Or.inr ⟨hi, h⟩⟩
      · right; exact Or.inr ⟨hr.symm, Or.inr ⟨hi.symm, h⟩⟩
    · rcases lt_or_gt_of_ne hi with h | h
      · left; exact Or.inr ⟨hr, Or.inl h⟩
      · right; exact Or.inr ⟨hr.symm, Or.inl h⟩
  · rcases lt_or_gt_of_ne hr with h | h
    · left; exact Or.inl h
    · right; exact Or.inl h

theorem keyLe_trans (k1 k2 k3 : SortKey) (h12 : keyLe k1 k2 = true)
    (h23 : keyLe k2 k3 = true) : keyLe k1 k3 = true := by
  simp only [keyLe, decide_eq_true_eq] at h12 h23 ⊢
  rcases h12 with h12 | ⟨hr12, h12⟩
  · rcases h23 with h23 | ⟨hr23, _⟩
    · exact Or.inl (lt_trans h12 h23)
    · exact Or.inl (hr23 ▸ h12)
  · rcases h23 with h23 | ⟨hr23, h23⟩
    · exact Or.inl (hr12 ▸ h23)
    · refine Or.inr ⟨hr12.trans hr23, ?_⟩
      rcases h12 with h12 | ⟨hi12, h12⟩
      · rcases h23 with h23 | ⟨hi23, _⟩
        · exact Or.inl (lt_trans h12 h23)
        · exact Or.inl (hi23 ▸ h12)
      · rcases h23 with h23 | ⟨hi23, h23⟩
        · exact Or.inl (hi12 ▸ h23)
        · exact Or.inr ⟨hi12.trans hi23, charListLe_trans _ _ _ h12 h23⟩

theorem keyLe_antisymm (k1 k2 : SortKey) (h12 : keyLe k1 k2 = true)
    (h21 : keyLe k2 k1 = true) : k1 = k2 := by
  simp only [keyLe, decide_eq_true_eq] at h12 h21
  rcases h12 with h12 | ⟨hr12, h12⟩
  · rcases h21 with h21 | ⟨hr21, _⟩
    · exact absurd (lt_trans h12 h21) (lt_irrefl _)
    · exact absurd (hr21 ▸ h12) (lt_irrefl _)
  · rcases h21 with h21 | ⟨_, h21⟩
    · exact absurd (hr12 ▸ h21) (lt_irrefl _)
    · rcases h12 with h12 | ⟨hi12, h12⟩
      · rcases h21 with h21 | ⟨hi21, _⟩
        · exact absurd (lt_trans h12 h21) (lt_irrefl _)
        · exact absurd (hi21 ▸ h12) (lt_irrefl _)
      · rcases h21 with h21 | ⟨_, h21⟩
        · exact absurd (hi12 ▸ h21) (lt_irrefl _)
        · cases k1; cases k2
          simp only at hr12 hi12 h12 h21
          subst hr12; subst hi12
          rw [charListLe_antisymm _ _ h12 h21]

theorem rowLeBy_total (ord : List (String × OrderDir)) (r1 r2 : Row) :
    rowLeBy ord r1 r2 = true ∨ rowLeBy ord r2 r1 = true := by
  induction ord with
  | nil => left; rfl
  | cons cd rest ih =>
    obtain ⟨c, d⟩ := cd
    by_cases hk : sortKeyOf (lookupRow r1 c) = sortKeyOf (lookupRow r2 c)
    · rcases ih with h | h
      · left; simpa [rowLeBy, hk] using h
      · right; simpa [rowLeBy, hk.symm] using h
    · cases d
      · rcases keyLe_total (sortKeyOf (lookupRow r1 c)) (sortKeyOf (lookupRow r2 c)) with h | h
        · left; simp [rowLeBy, hk, h]
        · right; simp [rowLeBy, Ne.symm hk, h]
      · rcases keyLe_total (sortKeyOf (lookupRow r1 c)) (sortKeyOf (lookupRow r2 c)) with h | h
        · right; simp [rowLeBy, Ne.symm hk, h]
        · left; simp [rowLeBy, hk, h]

theorem rowLeBy_trans (ord : List (String × OrderDir)) (r1 r2 r3 : Row)
    (h12 : rowLeBy ord r1 r2 = true) (h23 : rowLeBy ord r2 r3 = true) :
    rowLeBy ord r1 r3 = true := by
  induction ord with
  | nil => rfl
  | cons cd rest ih =>
    obtain ⟨c, d⟩ := cd
    by_cases h12k : sortKeyOf (lookupRow r1 c) = sortKeyOf (lookupRow r2 c) <;>
      by_cases h23k : sortKeyOf (lookupRow r2 c) = sortKeyOf (lookupRow r3 c)
    · have h13k : sortKeyOf (lookupRow r1 c) = sortKeyOf (lookupRow r3 c) := h12k.trans h23k
      simp only [rowLeBy, if_pos h12k] at h12
      simp only [rowLeBy, if_pos h23k] at h23
      simp only [rowLeBy, if_pos h13k]
      exact ih h12 h23
    · have h13k : sortKeyOf (lookupRow r1 c) ≠ sortKeyOf (lookupRow r3 c) := by
        intro he
        exact h23k (h12k.symm.trans he)
      simp only [rowLeBy, if_neg h23k] at h23
      simp only [rowLeBy, if_neg h13k]
      cases d
      · rw [← h12k] at h23; exact h23
      · rw [← h12k] at h23; exact h23
    · have h13k : sortKeyOf (lookupRow r1 c) ≠ sortKeyOf (lookupRow r3 c) := by
        intro he
        exact h12k (he.trans h23k.symm)
      simp only [rowLeBy, if_neg h12k] at h12
      simp only [rowLeBy, if_neg h13k]
      cases d
      · rw [h23k] at h12; exact h12
      · rw [h23k] at h12; exact h12
    · cases d
      · simp only [rowLeBy, if_neg h12k] at h12
        simp only [rowLeBy, if_neg h23k] at h23
        have h13 := keyLe_trans _ _ _ h12 h23
        have h13k : sortKeyOf (lookupRow r1 c) ≠ sortKeyOf (lookupRow r3 c) := by
          intro he
          exact h12k (keyLe_antisymm _ _ h12 (he ▸ h23))
        simp only [rowLeBy, if_neg h13k]
        exact h13
      · simp only [rowLeBy, if_neg h12k] at h12
        simp only [rowLeBy, if_neg h23k] at h23
        have h13 := keyLe_trans _ _ _ h23 h12
        have h13k : sortKeyOf (lookupRow r1 c) ≠ sortKeyOf (lookupRow r3 c) := by
          intro he
          exact h12k (keyLe_antisymm _ _ (he.symm ▸ h23) h12)
        simp only [rowLeBy, if_neg h13k]
        exact h13

/-- Stable insertion of one element into a sorted list: the new element goes
before the first existing element it compares at or below. -/
def insertSorted (le : α → α → Bool) (x : α) : List α → List α
  | [] => [x]
  | y :: ys => if le x y then x :: y :: ys else y :: insertSorted le x ys

/-- Modelled from the spec: the stable multi-key sort applied by `orderBy`
(insertion sort over the row comparator). -/
def sortRows (le : α → α → Bool) : List α → List α
  | [] => []
  | x :: xs => insertSorted le x (sortRows le xs)

theorem perm_insertSorted (le : α → α → Bool) (x : α) (l : List α) :
    (insertSorted le x l).Perm (x :: l) := by
  induction l with
  | nil => exact List.Perm.refl _
  | cons y ys ih =>
    by_cases h : le x y = true
    · simp [insertSorted, h]
    · simp only [insertSorted, h, if_false, Bool.false_eq_true]
      exact (ih.cons y).trans (List.Perm.swap x y ys)

theorem perm_sortRows (le : α → α → Bool) (l : List α) :
    (sortRows le l).Perm l := by
  induction l with
  | nil => exact List.Perm.refl _
  | cons x xs ih =>
    exact (perm_insertSorted le x (sortRows le xs)).trans (ih.cons x)

theorem mem_insertSorted (le : α → α → Bool) (x z : α) (l : List α) :
    z ∈ insertSorted le x l ↔ z = x ∨ z ∈ l := by
  constructor
  · intro h
    have := (perm_insertSorted le x l).mem_iff.mp h
    simpa using this
  · intro h
    apply (perm_insertSorted le x l).mem_iff.mpr
    simpa using h

theorem pairwise_insertSorted (le : α → α → Bool)
    (htot : ∀ a b, le a b = true ∨ le b a = true)
    (htrans : ∀ a b c, le a b = true → le b c = true → le a c = true)
    (x : α) (l : List α)
    (hl : l.Pairwise (fun a b => le a b = true)) :
    (insertSorted le x l).Pairwise (fun a b => le a b = true) := by
  induction l with
  | nil => simp [insertSorted]
  | cons y ys ih =>
    rcases hl with _ | ⟨hy, hys⟩
    by_cases h : le x y = true
    · simp only [insertSorted, h, if_true]
      refine List.Pairwise.cons ?_ (List.Pairwise.cons hy hys)
      intro z hz
      rcases List.mem_cons.mp hz with hz | hz
      · subst hz; exact h
      · exact htrans x y z h (hy z hz)
    · simp only [insertSorted, h, if_false, Bool.false_eq_true]
      refine List.Pairwise.cons ?_ (ih hys)
      intro z hz
      rcases (mem_insertSorted le x z ys).mp hz with hz | hz
      · subst hz
        rcases htot y z with hyz | hzy
        · exact hyz
        · exact absurd hzy h
      · exact hy z hz

theorem sorted_sortRows (le : α → α → Bool)
    (htot : ∀ a b, le a b = true ∨ le b a = true)
    (htrans : ∀ a b c, le a b = true → le b c = true → le a c = true)
    (l : List α) : (sortRows le l).Pairwise (fun a b => le a b = true) := by
  induction l with
  | nil => simp [sortRows]
  | cons x xs ih =>
    exact pairwise_insertSorted le htot htrans x (sortRows le xs) ih

/-- Table state of the reference in-memory backend: declared model plus the
current row collection. -/
structure Table where
  name : String
  model : List DataModel
  rows : List Row

/-- Join types of the `JoinArgs` interface. -/
inductive JoinType where
  | inner
  | left
  | right
  | cross
deriving DecidableEq

/-- Arguments of the `join` builder call (`JoinArgs` in the declaration
file): join type, right-side table name, and a dot-qualified condition
triple; the condition drops out only for a bare cross join. -/
structure JoinArgs where
  jtype : JoinType
  table : String
  jwhere : Option (String × String × String)

/-- Dot-qualify every column of a row with its table name, as required for
joined row sets. -/
def qualifyRow (tn : String) (r : Row) : Row :=
  r.map (fun kv => (tn ++ "." ++ kv.1, kv.2))

/-- Modelled from the spec: the padding row used for the outer side of a
left/right join, every column of the given model at the absent marker. -/
def padRow (tn : String) (model : List DataModel) : Row :=
  model.map (fun c => (tn ++ "." ++ c.key, Value.vNull))

/-- Evaluate a compiled join condition against a combined row: both
dot-qualified references are looked up and compared; a missing side fails
the pair. -/
def evalJoinOn (cond : Option (String × Op × String)) (r : Row) : Bool :=
  match cond with
  | none => true
  | some (lref, op, rref) =>
    match lookupRow r lref, lookupRow r rref with
    | some a, some b => valueTest op a b
    | _, _ => false

/-- Modelled from the spec: the nested-loop join engine.  Inner keeps only
row pairs satisfying the join condition, left keeps all left rows padding
unmatched right columns, right is the mirror, and cross produces the
Cartesian product with the condition as a post-filter when supplied. -/
def joinRows (lt rt : Table) (jt : JoinType) (cond : Option (String × Op × String)) :
    List Row :=
  match jt with
  | .inner =>
    lt.rows.flatMap (fun lr =>
      (rt.rows.map (fun rr => qualifyRow lt.name lr ++ qualifyRow rt.name rr)).filter
        (evalJoinOn cond))
  | .left =>
    lt.rows.flatMap (fun lr =>
      let ms := (rt.rows.map (fun rr => qualifyRow lt.name lr ++ qualifyRow rt.name rr)).filter
        (evalJoinOn cond)
      if ms.isEmpty then [qualifyRow lt.name lr ++ padRow rt.name rt.model] else ms)
  | .right =>
    rt.rows.flatMap (fun rr =>
      let ms := (lt.rows.map (fun lr => qualifyRow lt.name lr ++ qualifyRow rt.name rr)).filter
        (evalJoinOn cond)
      if ms.isEmpty then [padRow lt.name lt.model ++ qualifyRow rt.name rr] else ms)
  | .cross =>
    (lt.rows.flatMap (fun lr =>
      rt.rows.map (fun rr => qualifyRow lt.name lr ++ qualifyRow rt.name rr))).filter
      (evalJoinOn cond)

/-- Database state: the tables, the user-registered filter functions, and
the optional rowFilter callback applied to every upserted row. -/
structure DB where
  tables : List Table
  filters : List (String × (List Row → Option Value → List Row))
  rowFilterFn : Option (Row → Row) := none

/-- Integer value of a column, defaulting to zero; used by the numeric
built-in filters. -/
def intValOf (r : Row) (c : String) : Int :=
  match lookupRow r c with
  | some (.vInt n) => n
  | _ => 0

/-- Modelled from the spec: the built-in aggregation filters of the memory
backend (count, sum, min, max, average), each producing a single-row
result. -/
def builtinFilter (name : String) : Option (List Row → Option Value → List Row) :=
  match name with
  | "count" => some (fun rows _ => [[("count", .vInt rows.length)]])
  | "sum" => some (fun rows args =>
      match args with
      | some (.vStr c) => [[("sum", .vInt ((rows.map (fun r => intValOf r c)).sum))]]
      | _ => [[("sum", .vInt 0)]])
  | "min" => some (fun rows args =>
      match args with
      | some (.vStr c) => [[("min", .vInt ((rows.map (fun r => intValOf r c)).foldl min 0))]]
      | _ => [[("min", .vInt 0)]])
  | "max" => some (fun rows args =>
      match args with
      | some (.vStr c) => [[("max", .vInt ((rows.map (fun r => intValOf r c)).foldl max 0))]]
      | _ => [[("max", .vInt 0)]])
  | "average" => some (fun rows args =>
      match args with
      | some (.vStr c) =>
        [[("average", .vInt (if rows.length = 0 then 0
          else ((rows.map (fun r => intValOf r c)).sum) / rows.length))]]
      | _ => [[("average", .vInt 0)]])
  | _ => none

/-- Resolve a filter name: built-ins first, then the user-registered
filters supplied before connect. -/
def resolveFilter (db : DB) (name : String) : Option (List Row → Option Value → List Row) :=
  match builtinFilter name with
  | some f => some f
  | none =>
    match db.filters.find? (fun nf => nf.1 == name) with
    | some nf => some nf.2
    | none => none

/-- First filter name of the pipeline that resolves to nothing, if any;
an unregistered name is a compile-time error. -/
def firstBadFilter (db : DB) : List (String × Option Value) → Option String
  | [] => none
  | (n, _) :: rest => if (resolveFilter db n).isSome then firstBadFilter db rest else some n

/-- Modelled from the spec: the filter pipeline composes left to right, each
filter's output feeding the next filter's input. -/
def applyFilters (db : DB) (fs : List (String × Option Value)) (rows : List Row) : List Row :=
  fs.foldl (fun acc nf =>
    match resolveFilter db nf.1 with
    | some f => f acc nf.2
    | none => acc) rows

/-- Base operation of a compiled query, mirroring `query(action, args)` of
the builder surface. -/
inductive QAction where
  | select (cols : Option (List String))
  | upsert (row : Row)
  | delete (cols : Option (List String))
  | drop

/-- Compiled query descriptor accumulated by one builder chain: the base
action plus the attached modifiers. -/
structure Query where
  action : QAction
  whereRaw : Option CondRaw := none
  order : List (String × OrderDir) := []
  joinArg : Option JoinArgs := none
  limitN : Option Nat := none
  offsetN : Option Nat := none
  filters : List (String × Option Value) := []

/-- Filter a row set by an optional compiled condition tree; no condition
keeps every row. -/
def whereFilter (wc : Option Cond) (rows : List Row) : List Row :=
  match wc with
  | none => rows
  | some c => rows.filter (fun r => evalCond r c)

/-- Project rows onto a selected column list; no list keeps all columns. -/
def projectRows (cols : Option (List String)) (rows : List Row) : List Row :=
  match cols with
  | none => rows
  | some cs => rows.map (fun r => r.filter (fun kv => cs.contains kv.1))

/-- Merge an upsert argument into an existing row: fields present in the
argument win, unspecified fields retain their prior values. -/
def mergeRow (old new : Row) : Row :=
  old.map (fun kv =>
    match lookupRow new kv.1 with
    | some v => (kv.1, v)
    | none => kv)
  ++ new.filter (fun kv => (lookupRow old kv.1).isNone)

/-- Largest integer value stored under the given key, floor zero; the seed
of auto-increment key generation. -/
def maxIntKey (rows : List Row) (k : String) : Int :=
  rows.foldl (fun m r =>
    match lookupRow r k with
    | some (.vInt n) => max m n
    | _ => m) 0

/-- Modelled from the spec: key generation for an upsert that carries no
usable primary-key value: auto-increment for integer keys, identifier
generation for identifier-typed keys (the RFC4122 generator is randomized
and is modelled here by a deterministic fresh tag). -/
def generatedKey (t : Table) (c : DataModel) : Value :=
  match c.type with
  | .tInt => .vInt (maxIntKey t.rows c.key + 1)
  | _ => .vStr ("id-" ++ toString (t.rows.length + 1))

/-- Is the value the null/undefined marker?  An upsert whose primary-key
cell is null is treated as carrying no key. -/
def isNullV : Value → Bool
  | .vNull => true
  | _ => false

/-- Do two rows carry the same (present) value under the given key? -/
def sameKeyVal (pc : DataModel) (v : Value) (row : Row) : Bool :=
  match lookupRow row pc.key with
  | some w => valueBeq w v
  | none => false

/-- Does the row list carry a duplicated primary-key value?  Used as the
uniqueness validation of a write. -/
def pkDup (model : List DataModel) (rows : List Row) : Bool :=
  match pkCol model with
  | none => false
  | some pc => dupAux pc rows
where
  dupAux (pc : DataModel) : List Row → Bool
    | [] => false
    | row :: rest =>
      (match lookupRow row pc.key with
       | some v => rest.any (sameKeyVal pc v)
       | none => false) || dupAux pc rest

/-- Modelled from the spec: upsert resolution of the reference backend.
With a where clause the argument is merged into every matched row.
Otherwise, a row-like argument carrying a primary-key value matching an
existing row is merged field by field into it; an argument carrying an
unmatched key is inserted with that key (the declaration file: "otherwise
create a new row with this data"); with no usable key a generated key is
assigned and the row inserted.  Every written row is default-filled and
type-coerced against the model and then passed through the rowFilter
callback; a write that would duplicate a primary-key value is rejected
without mutation. -/
def upsertOutcome (f : Row → Row) (t : Table) (wc : Option Cond) (r : Row) :
    List Row × List Row :=
  match wc with
  | some c =>
    ((t.rows.map (fun row =>
        if evalCond row c then f (coerceRow t.model (mergeRow row r)) else row)),
     (t.rows.filterMap (fun row =>
        if evalCond row c then some (f (coerceRow t.model (mergeRow row r))) else none)))
  | none =>
    match pkCol t.model with
    | none =>
      let newRow := f (coerceRow t.model r)
      (t.rows ++ [newRow], [newRow])
    | some pc =>
      match lookupRow r pc.key with
      | some v =>
        if isNullV v then
          let newRow := f (coerceRow t.model ((pc.key, generatedKey t pc) :: r))
          (t.rows ++ [newRow], [newRow])
        else if t.rows.any (sameKeyVal pc v) then
          ((t.rows.map (fun row =>
              if sameKeyVal pc v row then f (coerceRow t.model (mergeRow row r)) else row)),
           (t.rows.filterMap (fun row =>
              if sameKeyVal pc v row then some (f (coerceRow t.model (mergeRow row r)))
              else none)))
        else
          let newRow := f (coerceRow t.model r)
          (t.rows ++ [newRow], [newRow])
      | none =>
        let newRow := f (coerceRow t.model ((pc.key, generatedKey t pc) :: r))
        (t.rows ++ [newRow], [newRow])

/-- Commit an upsert outcome, rejecting a write that would violate the
primary-key uniqueness invariant without mutating the table. -/
def upsertAction (rf : Option (Row → Row)) (t : Table) (wc : Option Cond) (r : Row) :
    Except QErr (Table × List Row) :=
  let outcome := upsertOutcome (rf.getD id) t wc r
  if pkDup t.model outcome.1 then
    .error ⟨"upsert violates the primary key uniqueness invariant"⟩
  else
    .ok ({ t with rows := outcome.1 }, outcome.2)

/-- Type default of the named column under the given model, the value a
column-list delete resets a cell to. -/
def typeDefaultFor (model : List DataModel) (k : String) : Value :=
  match model.find? (fun c => c.key == k) with
  | some c => typeDefault c.type
  | none => .vNull

/-- Reset the listed columns of a row to their type defaults, leaving every
other column untouched. -/
def resetCols (model : List DataModel) (cs : List String) (r : Row) : Row :=
  r.map (fun kv => if cs.contains kv.1 then (kv.1, typeDefaultFor model kv.1) else kv)

/-- Modelled from the spec: delete resolution.  With a column list, matched
rows keep their identity and only the listed columns are reset to their
type defaults; with no column list the matched rows are removed entirely
(no where clause matches every row, making it the drop equivalent). -/
def deleteAction (t : Table) (wc : Option Cond) (cols : Option (List String)) :
    Table × List Row :=
  let hit := fun (row : Row) =>
    match wc with
    | some c => evalCond row c
    | none => true
  match cols with
  | none =>
    ({ t with rows := t.rows.filter (fun row => !(hit row)) }, t.rows.filter hit)
  | some cs =>
    ({ t with rows := t.rows.map (fun row =>
        if hit row then resetCols t.model cs row else row) },
     t.rows.filterMap (fun row =>
        if hit row then some (resetCols t.model cs row) else none))

/-- Find a table of the database by name. -/
def findTable (db : DB) (tn : String) : Option Table :=
  db.tables.find? (fun t => t.name == tn)

/-- Replace a table of the database by name. -/
def replaceTable (db : DB) (t : Table) : DB :=
  { db with tables := db.tables.map (fun u => if u.name == t.name then t else u) }

/-- Compile the optional raw where tree attached to a query. -/
def compileWhereOpt : Option CondRaw → Except QErr (Option Cond)
  | none => .ok none
  | some cr =>
    match compileCond cr with
    | .error e => .error e
    | .ok c => .ok (some c)

/-- Resolve and compile the optional join argument: the right-side table
must exist and the join operator must be recognized. -/
def compileJoin (db : DB) :
    Option JoinArgs → Except QErr (Option (Table × JoinType × Option (String × Op × String)))
  | none => .ok none
  | some j =>
    match findTable db j.table with
    | none => .error ⟨"join target table not found: " ++ j.table⟩
    | some rt =>
      match j.jwhere with
      | none => .ok (some (rt, j.jtype, none))
      | some (l, op, r) =>
        match compileOp op with
        | none => .error ⟨"invalid operator in join condition: " ++ op⟩
        | some o => .ok (some (rt, j.jtype, some (l, o, r)))

/-- Modelled from the spec: the backend execution state machine triggered by
exec().  Resolve the table, compile the condition tree, validate the filter
pipeline, resolve the join, then apply the base operation; selects order,
paginate, project and run the filter pipeline; mutations rewrite the table
state; every failure leaves the database untouched and reports a
descriptive error. -/
def execQuery (db : DB) (tn : String) (q : Query) : DB × Except QErr (List Row) :=
  match findTable db tn with
  | none => (db, .error ⟨"table not found: " ++ tn⟩)
  | some t =>
    match compileWhereOpt q.whereRaw with
    | .error e => (db, .error e)
    | .ok wc =>
      match firstBadFilter db q.filters with
      | some n => (db, .error ⟨"filter not supported or registered: " ++ n⟩)
      | none =>
        match compileJoin db q.joinArg with
        | .error e => (db, .error e)
        | .ok jn =>
          match q.action with
          | .select cols =>
            let base :=
              match jn with
              | some (rt, jt, jc) => joinRows t rt jt jc
              | none => t.rows
            let filtered := whereFilter wc base
            let ordered := sortRows (rowLeBy q.order) filtered
            let offs := ordered.drop (q.offsetN.getD 0)
            let limited :=
              match q.limitN with
              | some n => offs.take n
              | none => offs
            (db, .ok (applyFilters db q.filters (projectRows cols limited)))
          | .upsert r =>
            match upsertAction db.rowFilterFn t wc r with
            | .error e => (db, .error e)
            | .ok (t2, changed) => (replaceTable db t2, .ok changed)
          | .delete cols =>
            let res := deleteAction t wc cols
            (replaceTable db res.1, .ok res.2)
          | .drop =>
            (replaceTable db { t with rows := [] }, .ok t.rows)

/-- Double-quote character delimiting CSV text cells. -/
def dq : Char := Char.ofNat 34

/-- Single-quote character delimiting nested string literals inside a
composite CSV cell. -/
def sq : Char := Char.ofNat 39

/-- Newline character separating CSV lines. -/
def nl : Char := Char.ofNat 10

/-- Opening brace of a map literal. -/
def mapOpen : Char := Char.ofNat 123

/-- Closing brace of a map literal. -/
def mapClose : Char := Char.ofNat 125

/-- Decimal digit to character. -/
def digitChar (d : Nat) : Char :=
  Char.ofNat (48 + d % 10)

/-- Character to decimal digit, when it is one. -/
def digitVal (c : Char) : Option Nat :=
  if 48 ≤ c.toNat ∧ c.toNat ≤ 57 then some (c.toNat - 48) else none

/-- Big-endian decimal digits of a natural number, fuel-driven so that the
definition evaluates inside the kernel. -/
def natCharsAux : Nat → Nat → List Char → List Char
  | 0, _, acc => acc
  | fuel + 1, n, acc =>
    if n < 10 then digitChar n :: acc
    else natCharsAux fuel (n / 10) (digitChar (n % 10) :: acc)

/-- Decimal representation of a natural number. -/
def natChars (n : Nat) : List Char :=
  natCharsAux (n + 1) n []

/-- Decimal representation of an integer. -/
def intChars : Int → List Char
  | .ofNat n => natChars n
  | .negSucc m => '-' :: natChars (m + 1)

/-- Longest leading run of decimal digits. -/
def takeDigits : List Char → (List Nat × List Char)
  | [] => ([], [])
  | c :: rest =>
    match digitVal c with
    | some d =>
      match takeDigits rest with
      | (ds, r) => (d :: ds, r)
    | none => ([], c :: rest)

/-- Value of a big-endian digit list. -/
def digitsToNat (ds : List Nat) : Nat :=
  ds.foldl (fun a d => a * 10 + d) 0

/-- Parse a decimal integer at the head of the character list, returning
the remaining characters. -/
def parseIntChars (cs : List Char) : Option (Int × List Char) :=
  match cs with
  | [] => none
  | c :: rest =>
    if c = '-' then
      match takeDigits rest with
      | ([], _) => none
      | (ds, r) => some (-(digitsToNat ds : Int), r)
    else
      match takeDigits cs with
      | ([], _) => none
      | (ds, r) => some ((digitsToNat ds : Int), r)

mutual

/-- Modelled from the spec: the structural literal encoding of a composite
value inside a CSV cell, in the JavaScript-literal style the engine writes:
brackets for arrays, braces for maps, single-quoted nested strings (the
cell itself is double-quoted, so nested literals avoid double quotes). -/
def litChars : Value → List Char
  | .vNull => ['n', 'u', 'l', 'l']
  | .vInt n => intChars n
  | .vStr s => sq :: s.data ++ [sq]
  | .vBool true => ['t', 'r', 'u', 'e']
  | .vBool false => ['f', 'a', 'l', 's', 'e']
  | .vArr xs => '[' :: litList xs ++ [']']
  | .vMap kvs => mapOpen :: litKVs kvs ++ [mapClose]

def litList : List Value → List Char
  | [] => []
  | [x] => litChars x
  | x :: xs => litChars x ++ ',' :: litList xs

def litKVs : List (String × Value) → List Char
  | [] => []
  | [kv] => sq :: kv.1.data ++ sq :: ':' :: litChars kv.2
  | kv :: rest => (sq :: kv.1.data ++ sq :: ':' :: litChars kv.2) ++ ',' :: litKVs rest

end

mutual

/-- Node count of a value, the fuel bound of the literal parser. -/
def vNodes : Value → Nat
  | .vNull | .vInt _ | .vStr _ | .vBool _ => 1
  | .vArr xs => 1 + vNodesList xs
  | .vMap kvs => 1 + vNodesKV kvs

def vNodesList : List Value → Nat
  | [] => 1
  | x :: xs => vNodes x + vNodesList xs

def vNodesKV : List (String × Value) → Nat
  | [] => 1
  | kv :: rest => vNodes kv.2 + vNodesKV rest

end

/-- Is the string free of the characters that the CSV encoding reserves
(double quote, single quote, newline)? -/
def strOK (s : String) : Bool :=
  s.data.all (fun c => !(c = dq || c = sq || c = nl))

mutual

/-- Values whose CSV encoding is unambiguous: every string (including
nested strings and map keys) avoids the quote and newline characters. -/
def valSafe : Value → Bool
  | .vNull | .vInt _ | .vBool _ => true
  | .vStr s => strOK s
  | .vArr xs => valSafeList xs
  | .vMap kvs => valSafeKV kvs

def valSafeList : List Value → Bool
  | [] => true
  | x :: xs => valSafe x && valSafeList xs

def valSafeKV : List (String × Value) → Bool
  | [] => true
  | kv :: rest => strOK kv.1 && valSafe kv.2 && valSafeKV rest

end

/-- Split off the characters before the next single quote, returning the
remainder after that quote; fails when no quote closes the span. -/
def spanNotSq : List Char → Option (List Char × List Char)
  | [] => none
  | c :: rest =>
    if c = sq then some ([], rest)
    else
      match spanNotSq rest with
      | some (a, b) => some (c :: a, b)
      | none => none

mutual

/-- Modelled from the spec: the recursive-descent parser reading a
structural literal back out of a CSV cell, the inverse direction of
`litChars`.  Fuel-driven so that the definition evaluates in the kernel. -/
def parseLit : Nat → List Char → Option (Value × List Char)
  | 0, _ => none
  | fuel + 1, cs =>
    match cs with
    | [] => none
    | c :: rest =>
      if c = sq then
        match spanNotSq rest with
        | some (content, after) => some (.vStr (String.mk content), after)
        | none => none
      else if c = '[' then
        parseArrItems fuel rest
      else if c = mapOpen then
        parseMapItems fuel rest
      else if cs.take 4 = ['t', 'r', 'u', 'e'] then some (.vBool true, cs.drop 4)
      else if cs.take 5 = ['f', 'a', 'l', 's', 'e'] then some (.vBool false, cs.drop 5)
      else if cs.take 4 = ['n', 'u', 'l', 'l'] then some (.vNull, cs.drop 4)
      else
        match parseIntChars cs with
        | some (n, r2) => some (.vInt n, r2)
        | none => none

def parseArrItems : Nat → List Char → Option (Value × List Char)
  | 0, _ => none
  | fuel + 1, cs =>
    match cs with
    | c :: rest =>
      if c = ']' then some (.vArr [], rest)
      else
        match parseLit fuel cs with
        | some (v, cs2) =>
          (match cs2 with
           | c2 :: cs3 =>
             if c2 = ',' then
               match parseArrItems fuel cs3 with
               | some (.vArr vs, cs4) => some (.vArr (v :: vs), cs4)
               | _ => none
             else if c2 = ']' then some (.vArr [v], cs3)
             else none
           | [] => none)
        | none => none
    | [] => none

def parseMapItems : Nat → List Char → Option (Value × List Char)
  | 0, _ => none
  | fuel + 1, cs =>
    match cs with
    | c :: rest =>
      if c = mapClose then some (.vMap [], rest)
      else if c = sq then
        match spanNotSq rest with
        | some (key, afterKey) =>
          (match afterKey with
           | c2 :: afterColon =>
             if c2 = ':' then
               match parseLit fuel afterColon with
               | some (v, cs2) =>
                 (match cs2 with
                  | c3 :: cs3 =>
                    if c3 = ',' then
                      match parseMapItems fuel cs3 with
                      | some (.vMap kvs, cs4) => some (.vMap ((String.mk key, v) :: kvs), cs4)
                      | _ => none
                    else if c3 = mapClose then some (.vMap [(String.mk key, v)], cs3)
                    else none
                  | [] => none)
               | none => none
             else none
           | [] => none)
        | none => none
      else none
    | [] => none

end

/-- Strip one layer of surrounding double quotes from a CSV cell, when
present. -/
def stripQuotes (cs : List Char) : List Char :=
  match cs with
  | c :: rest =>
    if c = dq then
      if rest.getLast? = some dq then rest.dropLast else cs
    else cs
  | [] => []

/-- Modelled from the spec: serialize one value into a CSV cell.  Numbers
and booleans are written bare, strings double-quoted, composite values as
their double-quoted structural literal; a null/undefined cell is empty. -/
def cellChars : Value → List Char
  | .vNull => []
  | .vInt n => intChars n
  | .vBool true => ['t', 'r', 'u', 'e']
  | .vBool false => ['f', 'a', 'l', 's', 'e']
  | .vStr s => dq :: s.data ++ [dq]
  | .vArr xs => dq :: litChars (.vArr xs) ++ [dq]
  | .vMap kvs => dq :: litChars (.vMap kvs) ++ [dq]

/-- Modelled from the spec: decode one CSV cell against its declared
column, coercing the parsed value and substituting the column default when
the cell cannot be read at the declared type. -/
def decodeCell (c : DataModel) (cs : List Char) : Value :=
  match c.type with
  | .tInt =>
    (match parseIntChars cs with
     | some (n, []) => .vInt n
     | _ => columnDefault c)
  | .tFloat =>
    (match parseIntChars cs with
     | some (n, []) => .vInt n
     | _ => columnDefault c)
  | .tString => .vStr (String.mk (stripQuotes cs))
  | .tUuid => .vStr (String.mk (stripQuotes cs))
  | .tBool =>
    if cs = ['t', 'r', 'u', 'e'] then .vBool true
    else if cs = ['f', 'a', 'l', 's', 'e'] then .vBool false
    else columnDefault c
  | .tArray =>
    (match parseLit ((stripQuotes cs).length + 1) (stripQuotes cs) with
     | some (v, []) => coerceValue c v
     | _ => columnDefault c)
  | .tMap =>
    (match parseLit ((stripQuotes cs).length + 1) (stripQuotes cs) with
     | some (v, []) => coerceValue c v
     | _ => columnDefault c)
  | .tBlob => .vStr (String.mk (stripQuotes cs))
  | .tOther _ => .vStr (String.mk (stripQuotes cs))

/-- CSV cell of one declared column of a row. -/
def cellOfColumn (c : DataModel) (r : Row) : List Char :=
  match lookupRow r c.key with
  | some v => cellChars v
  | none => []

/-- Join chunks with a separator character. -/
def intercalateChar (sep : Char) : List (List Char) → List Char
  | [] => []
  | [x] => x
  | x :: xs => x ++ sep :: intercalateChar sep xs

/-- One CSV data line of a row: the cells of the declared columns, comma
separated. -/
def lineOfRow (model : List DataModel) (r : Row) : List Char :=
  intercalateChar ',' (model.map (fun c => cellOfColumn c r))

/-- CSV header line: the declared column names, comma separated. -/
def headerLine (model : List DataModel) : List Char :=
  intercalateChar ',' (model.map (fun c => c.key.data))

/-- Modelled from the spec: `toCSV` serialization of a result row set
against the declared model: an optional header line of column names
followed by one comma-delimited line per row. -/
def toCSV (model : List DataModel) (rows : List Row) (headers : Bool) : String :=
  String.mk (intercalateChar nl
    ((if headers then [headerLine model] else []) ++ rows.map (lineOfRow model)))

/-- Split on a separator character (no quote awareness; used for lines). -/
def splitOnChar (sep : Char) : List Char → List (List Char)
  | [] => [[]]
  | c :: rest =>
    if c = sep then [] :: splitOnChar sep rest
    else
      match splitOnChar sep rest with
      | x :: xs => (c :: x) :: xs
      | [] => [[c]]

/-- Quote-aware scan of one CSV line: commas split cells only outside
double-quoted spans; quotes are kept in the cell text. -/
def splitCellsAux : List Char → Bool → List Char → List (List Char)
  | [], _, acc => [acc.reverse]
  | c :: rest, inq, acc =>
    if c = dq then splitCellsAux rest (!inq) (c :: acc)
    else if c = ',' then
      if inq then splitCellsAux rest inq (c :: acc)
      else acc.reverse :: splitCellsAux rest false []
    else splitCellsAux rest inq (c :: acc)

/-- Cells of one CSV line. -/
def splitCells (cs : List Char) : List (List Char) :=
  splitCellsAux cs false []

/-- Cell lookup in the header-to-cell association of one parsed line. -/
def lookupCell : List (String × List Char) → String → Option (List Char)
  | [], _ => none
  | kv :: rest, k => if kv.1 = k then some kv.2 else lookupCell rest k

/-- Modelled from the spec: rebuild one row from a CSV data line: the
header names identify which cell feeds which declared column, columns
without a cell receive their default. -/
def rowFromLine (model : List DataModel) (header : List String) (line : List Char) : Row :=
  let assoc := header.zip (splitCells line)
  model.map (fun c =>
    match lookupCell assoc c.key with
    | some cell => (c.key, decodeCell c cell)
    | none => (c.key, columnDefault c))

/-- Modelled from the spec: the parsing half of `loadCSV`: the first line is
the header naming the columns, every further line is decoded into one
row-like argument for the per-row upsert path. -/
def loadCSVRows (model : List DataModel) (csv : String) : List Row :=
  match splitOnChar nl csv.data with
  | [] => []
  | hline :: dataLines =>
    dataLines.map (rowFromLine model ((splitCells hline).map String.mk))

/-- Query that upserts one row-like argument with no modifiers. -/
def upsertQuery (r : Row) : Query :=
  { action := .upsert r }

/-- Modelled from the spec: `loadJS` performs one upsert per input row
through the standard execution path. -/
def loadJS (db : DB) (tn : String) (rows : List Row) : DB :=
  rows.foldl (fun d r => (execQuery d tn (upsertQuery r)).1) db

/-- Modelled from the spec: `loadCSV` parses the header and data lines
against the active table's model and delegates to the same per-row upsert
path as `loadJS`. -/
def loadCSV (db : DB) (tn : String) (csv : String) : DB :=
  match findTable db tn with
  | some t => loadJS db tn (loadCSVRows t.model csv)
  | none => db

/-- Modelled from the spec: the registries accumulated by the shared
`SomeSQLInstance`: the active-table pointer and the per-table models,
actions, views plus the database-wide filters, all collected before
connect(). -/
structure SInstance where
  activeTable : String
  models : List (String × List DataModel)
  actionsReg : List (String × List String)
  viewsReg : List (String × List String)
  filtersReg : List String

/-- Fresh instance state created by the first entry-function call. -/
def initialInstance : SInstance :=
  ⟨"", [], [], [], []⟩

/-- Modelled from the spec: the `SomeSQL(tablePointer?)` entry function.
The declaration exports a plain function returning a `SomeSQLInstance`, and
the example store relies on every call returning the one shared instance
(its model is registered through one call and connected through another);
the module-level instance is threaded here as explicit state.  A table
argument only switches the active-table pointer. -/
def someSQLEntry (g : Option SInstance) (t : Option String) : SInstance :=
  let i := g.getD initialInstance
  match t with
  | some n => { i with activeTable := n }
  | none => i

/-- Register a data model for the instance's active table (the `model`
builder call). -/
def registerModel (i : SInstance) (m : List DataModel) : SInstance :=
  { i with models := (i.activeTable, m) :: i.models }

/-- Model registered for a table, if any. -/
def lookupModel (i : SInstance) (tn : String) : Option (List DataModel) :=
  match i.models.find? (fun nm => nm.1 == tn) with
  | some nm => some nm.2
  | none => none

/-- Connect-time payload handed to the backend (the `DBConnect` interface):
every registered model, action, view and filter. -/
structure DBConnect where
  connModels : List (String × List DataModel)
  connActions : List (String × List String)
  connViews : List (String × List String)
  connFilters : List String

/-- Modelled from the spec: `connect()` hands all accumulated registries of
the shared instance to the backend at once. -/
def connectPayload (i : SInstance) : DBConnect :=
  ⟨i.models, i.actionsReg, i.viewsReg, i.filtersReg⟩

mutual

/-- Boolean value equality agrees with propositional equality. -/
def valueBeq_iff : ∀ (a b : Value), valueBeq a b = true ↔ a = b
  | .vNull, .vNull => by simp [valueBeq]
  | .vInt _, .vInt _ => by simp [valueBeq]
  | .vStr _, .vStr _ => by simp [valueBeq]
  | .vBool _, .vBool _ => by simp [valueBeq]
  | .vArr xs, .vArr ys => by
    simpa [valueBeq, Value.vArr.injEq] using valueBeqList_iff xs ys
  | .vMap xs, .vMap ys => by
    simpa [valueBeq, Value.vMap.injEq] using valueBeqKV_iff xs ys
  | .vNull, .vInt _ | .vNull, .vStr _ | .vNull, .vBool _ | .vNull, .vArr _
  | .vNull, .vMap _ => by simp [valueBeq]
  | .vInt _, .vNull | .vInt _, .vStr _ | .vInt _, .vBool _ | .vInt _, .vArr _
  | .vInt _, .vMap _ => by simp [valueBeq]
  | .vStr _, .vNull | .vStr _, .vInt _ | .vStr _, .vBool _ | .vStr _, .vArr _
  | .vStr _, .vMap _ => by simp [valueBeq]
  | .vBool _, .vNull | .vBool _, .vInt _ | .vBool _, .vStr _ | .vBool _, .vArr _
  | .vBool _, .vMap _ => by simp [valueBeq]
  | .vArr _, .vNull | .vArr _, .vInt _ | .vArr _, .vStr _ | .vArr _, .vBool _
  | .vArr _, .vMap _ => by simp [valueBeq]
  | .vMap _, .vNull | .vMap _, .vInt _ | .vMap _, .vStr _ | .vMap _, .vBool _
  | .vMap _, .vArr _ => by simp [valueBeq]

def valueBeqList_iff : ∀ (xs ys : List Value), valueBeqList xs ys = true ↔ xs = ys
  | [], [] => by simp [valueBeqList]
  | [], _ :: _ => by simp [valueBeqList]
  | _ :: _, [] => by simp [valueBeqList]
  | x :: xs, y :: ys => by
    simp only [valueBeqList, Bool.and_eq_true, List.cons.injEq]
    exact and_congr (valueBeq_iff x y) (valueBeqList_iff xs ys)

def valueBeqKV_iff : ∀ (xs ys : List (String × Value)),
    valueBeqKV xs ys = true ↔ xs = ys
  | [], [] => by simp [valueBeqKV]
  | [], _ :: _ => by simp [valueBeqKV]
  | _ :: _, [] => by simp [valueBeqKV]
  | kv :: xs, kv2 :: ys => by
    simp only [valueBeqKV, Bool.and_eq_true, List.cons.injEq, beq_iff_eq]
    constructor
    · rintro ⟨⟨h1, h2⟩, h3⟩
      exact ⟨Prod.ext h1 ((valueBeq_iff kv.2 kv2.2).mp h2), (valueBeqKV_iff xs ys).mp h3⟩
    · rintro ⟨h12, h3⟩
      exact ⟨⟨congrArg Prod.fst h12, (valueBeq_iff kv.2 kv2.2).mpr (congrArg Prod.snd h12)⟩,
        (valueBeqKV_iff xs ys).mpr h3⟩

end

instance : DecidableEq Value :=
  fun a b => decidable_of_iff (valueBeq a b = true) (valueBeq_iff a b)

theorem sameKeyVal_iff (pc : DataModel) (v : Value) (row : Row) :
    sameKeyVal pc v row = true ↔ lookupRow row pc.key = some v := by
  unfold sameKeyVal
  cases h : lookupRow row pc.key with
  | none => simp
  | some w => simp [valueBeq_iff]

theorem findTable_name (db : DB) (tn : String) (t : Table)
    (h : findTable db tn = some t) : t.name = tn := by
  have h2 := List.find?_some h
  simpa using h2

theorem find?_map_replace (tn : String) (t t2 : Table) (hname : t2.name = t.name) :
    ∀ l : List Table, l.find? (fun u => u.name == tn) = some t →
      (l.map (fun u => if u.name == t2.name then t2 else u)).find?
        (fun u => u.name == tn) = some t2 := by
  intro l
  induction l with
  | nil => intro h; simp at h
  | cons u rest ih =>
    intro h
    rw [List.find?_cons] at h
    by_cases hu : (u.name == tn) = true
    · rw [hu] at h
      simp only at h
      injection h with h2
      have h1 : (u.name == t2.name) = true := by
        rw [hname, ← h2]; exact beq_self_eq_true _
      have h2b : (t2.name == tn) = true := by
        rw [hname, ← h2]; exact hu
      have h1e : u.name = t2.name := beq_iff_eq.mp h1
      simp [List.find?_cons, h1, h1e, h2b]
    · rw [Bool.not_eq_true] at hu
      rw [hu] at h
      simp only at h
      have htn : t.name = tn := by
        simpa using List.find?_some h
      have h1 : (u.name == t2.name) = false := by
        rw [hname, htn]
        exact hu
      simp only [List.map_cons, h1, if_false, Bool.false_eq_true, reduceIte]
      rw [List.find?_cons, hu]
      simp only
      exact ih h

theorem findTable_replaceTable (db : DB) (tn : String) (t t2 : Table)
    (h : findTable db tn = some t) (hname : t2.name = t.name) :
    findTable (replaceTable db t2) tn = some t2 :=
  find?_map_replace tn t t2 hname db.tables h

theorem str_append_ne (s t : String) (h : 0 < s.length) : s ++ t ≠ "" := by
  intro he
  have h2 : (s ++ t).length = 0 := by rw [he]; rfl
  rw [String.length_append] at h2
  omega

mutual

/-- Every condition-compilation error carries a nonempty message. -/
def compileCond_err_msg : ∀ (cr : CondRaw) (e : QErr),
    compileCond cr = Except.error e → e.msg ≠ ""
  | .leaf col op v, e => by
    intro h
    simp only [compileCond] at h
    cases hop : compileOp op with
    | some o => rw [hop] at h; exact absurd h (by simp)
    | none =>
      rw [hop] at h
      injection h with h2
      rw [← h2]
      exact str_append_ne _ _ (by decide)
  | .group f rest, e => by
    intro h
    simp only [compileCond] at h
    cases hf : compileCond f with
    | error e2 =>
      rw [hf] at h
      injection h with h2
      exact h2 ▸ compileCond_err_msg f e2 hf
    | ok fc =>
      rw [hf] at h
      cases hr : compileConnected rest with
      | error e2 =>
        rw [hr] at h
        injection h with h2
        exact h2 ▸ compileConnected_err_msg rest e2 hr
      | ok rs => rw [hr] at h; exact absurd h (by simp)

def compileConnected_err_msg : ∀ (rest : List (String × CondRaw)) (e : QErr),
    compileConnected rest = Except.error e → e.msg ≠ ""
  | [], e => by intro h; exact absurd h (by simp [compileConnected])
  | (conn, c) :: rest, e => by
    intro h
    simp only [compileConnected] at h
    by_cases hc1 : conn = "and"
    · simp only [hc1, if_true, reduceIte] at h
      cases hc : compileCond c with
      | error e2 =>
        rw [hc] at h
        injection h with h2
        exact h2 ▸ compileCond_err_msg c e2 hc
      | ok cc =>
        rw [hc] at h
        cases hr : compileConnected rest with
        | error e2 =>
          rw [hr] at h
          injection h with h2
          exact h2 ▸ compileConnected_err_msg rest e2 hr
        | ok rs => rw [hr] at h; exact absurd h (by simp)
    · by_cases hc2 : conn = "or"
      · simp only [hc1, hc2, if_true, if_false, reduceIte] at h
        cases hc : compileCond c with
        | error e2 =>
          rw [hc] at h
          injection h with h2
          exact h2 ▸ compileCond_err_msg c e2 hc
        | ok cc =>
          rw [hc] at h
          cases hr : compileConnected rest with
          | error e2 =>
            rw [hr] at h
            injection h with h2
            exact h2 ▸ compileConnected_err_msg rest e2 hr
          | ok rs => rw [hr] at h; exact absurd h (by simp)
      · simp only [hc1, hc2, if_false, reduceIte] at h
        injection h with h2
        rw [← h2]
        exact str_append_ne _ _ (by decide)

end

theorem compileWhereOpt_err_msg (w : Option CondRaw) (e : QErr)
    (h : compileWhereOpt w = Except.error e) : e.msg ≠ "" := by
  cases w with
  | none => exact absurd h (by simp [compileWhereOpt])
  | some cr =>
    simp only [compileWhereOpt] at h
    cases hc : compileCond cr with
    | error e2 =>
      rw [hc] at h
      injection h with h2
      exact h2 ▸ compileCond_err_msg cr e2 hc
    | ok c => rw [hc] at h; exact absurd h (by simp)

/-- Query dropping the active table, as built by `query("drop")`. -/
def dropQuery : Query :=
  { action := .drop }

/-- C7: executing `drop` twice in succession yields an empty table after
each execution, and the second drop also resolves without error. -/
theorem drop_twice_idempotent (db : DB) (tn : String) (t : Table)
    (h : findTable db tn = some t) :
    ∃ db1 db2,
      execQuery db tn dropQuery = (db1, Except.ok t.rows) ∧
      findTable db1 tn = some { t with rows := [] } ∧
      execQuery db1 tn dropQuery = (db2, Except.ok ([] : List Row)) ∧
      findTable db2 tn = some { t with rows := [] } := by
  have hstep1 : execQuery db tn dropQuery
      = (replaceTable db { t with rows := [] }, Except.ok t.rows) := by
    simp [execQuery, h, compileWhereOpt, firstBadFilter, compileJoin, dropQuery]
  have hf1 : findTable (replaceTable db { t with rows := [] }) tn
      = some { t with rows := [] } :=
    findTable_replaceTable db tn t _ h rfl
  have hstep2 : execQuery (replaceTable db { t with rows := [] }) tn dropQuery
      = (replaceTable (replaceTable db { t with rows := [] }) { t with rows := [] },
         Except.ok ([] : List Row)) := by
    simp [execQuery, hf1, compileWhereOpt, firstBadFilter, compileJoin, dropQuery]
  refine ⟨replaceTable db { t with rows := [] },
    replaceTable (replaceTable db { t with rows := [] }) { t with rows := [] },
    hstep1, hf1, hstep2, ?_⟩
  exact findTable_replaceTable _ tn { t with rows := [] } _ hf1 rfl

/-- Witness for C7 at a concrete one-table database holding one row. -/
theorem drop_twice_idempotent_witness :
    ∃ db1 db2,
      execQuery ⟨[⟨"users", [⟨"id", .tInt, none, ["pk"]⟩], [[("id", Value.vInt 1)]]⟩], [], none⟩
          "users" dropQuery = (db1, Except.ok [[("id", Value.vInt 1)]]) ∧
      findTable db1 "users"
        = some ⟨"users", [⟨"id", .tInt, none, ["pk"]⟩], []⟩ ∧
      execQuery db1 "users" dropQuery = (db2, Except.ok ([] : List Row)) ∧
      findTable db2 "users"
        = some ⟨"users", [⟨"id", .tInt, none, ["pk"]⟩], []⟩ :=
  drop_twice_idempotent
    ⟨[⟨"users", [⟨"id", .tInt, none, ["pk"]⟩], [[("id", Value.vInt 1)]]⟩], [], none⟩
    "users" ⟨"users", [⟨"id", .tInt, none, ["pk"]⟩], [[("id", Value.vInt 1)]]⟩ rfl

theorem lookupRow_resetCols_not (model : List DataModel) (cs : List String) (r : Row)
    (k : String) (hk : cs.contains k = false) :
    lookupRow (resetCols model cs r) k = lookupRow r k := by
  have hm : k ∉ cs := by simpa using hk
  induction r with
  | nil => rfl
  | cons kv rest ih =>
    by_cases hkv : kv.1 = k
    · subst hkv
      simp [resetCols, lookupRow, hm]
    · by_cases hc : kv.1 ∈ cs
      · simpa [resetCols, lookupRow, hc, hkv] using ih
      · simpa [resetCols, lookupRow, hc, hkv] using ih

theorem lookupRow_resetCols_mem (model : List DataModel) (cs : List String) (r : Row)
    (k : String) (hk : cs.contains k = true) :
    lookupRow (resetCols model cs r) k
      = (lookupRow r k).map (fun _ => typeDefaultFor model k) := by
  have hm : k ∈ cs := by simpa using hk
  induction r with
  | nil => rfl
  | cons kv rest ih =>
    by_cases hkv : kv.1 = k
    · subst hkv
      simp [resetCols, lookupRow, hm]
    · by_cases hc : kv.1 ∈ cs
      · simpa [resetCols, lookupRow, hc, hkv] using ih
      · simpa [resetCols, lookupRow, hc, hkv] using ih

/-- C6: `delete` with no column list removes exactly the rows matched by the
where condition; `drop` removes every row even when a where clause is
attached; `delete` with neither columns nor a where clause clears the table
like `drop`; `delete` with a column list removes no row and only resets the
listed columns of matched rows to their type defaults. -/
theorem delete_vs_drop (db : DB) (tn : String) (t : Table) (cr : CondRaw) (c : Cond)
    (h : findTable db tn = some t) (hc : compileCond cr = Except.ok c) :
    (execQuery db tn { action := .delete none, whereRaw := some cr }
      = (replaceTable db { t with rows := t.rows.filter (fun r => !(evalCond r c)) },
         Except.ok (t.rows.filter (fun r => evalCond r c)))) ∧
    (execQuery db tn { action := .drop, whereRaw := some cr }
      = (replaceTable db { t with rows := [] }, Except.ok t.rows)) ∧
    (execQuery db tn { action := .delete none }
      = (replaceTable db { t with rows := [] }, Except.ok t.rows)) ∧
    ((execQuery db tn { action := .delete none }).1 = (execQuery db tn dropQuery).1) ∧
    (∀ cols : List String,
      execQuery db tn { action := .delete (some cols), whereRaw := some cr }
        = (replaceTable db { t with rows := t.rows.map (fun r =>
              if evalCond r c then resetCols t.model cols r else r) },
           Except.ok (t.rows.filterMap (fun r =>
              if evalCond r c then some (resetCols t.model cols r) else none))) ∧
      (t.rows.map (fun r =>
          if evalCond r c then resetCols t.model cols r else r)).length = t.rows.length) ∧
    (∀ (cols : List String) (r : Row) (k : String), cols.contains k = false →
        lookupRow (resetCols t.model cols r) k = lookupRow r k) ∧
    (∀ (cols : List String) (r : Row) (k : String), cols.contains k = true →
        lookupRow (resetCols t.model cols r) k
          = (lookupRow r k).map (fun _ => typeDefaultFor t.model k)) := by
  refine ⟨?_, ?_, ?_, ?_, ?_, ?_, ?_⟩
  · simp [execQuery, h, compileWhereOpt, hc, firstBadFilter, compileJoin, deleteAction]
  · simp [execQuery, h, compileWhereOpt, hc, firstBadFilter, compileJoin]
  · simp [execQuery, h, compileWhereOpt, firstBadFilter, compileJoin, deleteAction]
  · simp [execQuery, h, compileWhereOpt, firstBadFilter, compileJoin, deleteAction, dropQuery]
  · intro cols
    constructor
    · simp [execQuery, h, compileWhereOpt, hc, firstBadFilter, compileJoin, deleteAction]
    · simp
  · intro cols r k hk
    exact lookupRow_resetCols_not t.model cols r k hk
  · intro cols r k hk
    exact lookupRow_resetCols_mem t.model cols r k hk

/-- Witness for C6: deleting with a where clause on a concrete two-row table
removes exactly the matched row. -/
theorem delete_vs_drop_witness :
    execQuery ⟨[⟨"acc", [⟨"flag", .tBool, none, []⟩],
        [[("flag", Value.vBool true)], [("flag", Value.vBool false)]]⟩], [], none⟩
      "acc" { action := .delete none,
              whereRaw := some (.leaf "flag" "=" (.vBool true)) }
      = (⟨[⟨"acc", [⟨"flag", .tBool, none, []⟩], [[("flag", Value.vBool false)]]⟩], [], none⟩,
         Except.ok [[("flag", Value.vBool true)]]) := by
  have h := (delete_vs_drop
    ⟨[⟨"acc", [⟨"flag", .tBool, none, []⟩],
        [[("flag", Value.vBool true)], [("flag", Value.vBool false)]]⟩], [], none⟩
    "acc"
    ⟨"acc", [⟨"flag", .tBool, none, []⟩],
        [[("flag", Value.vBool true)], [("flag", Value.vBool false)]]⟩
    (.leaf "flag" "=" (.vBool true))
    (.leaf "flag" .opEq (.vBool true)) rfl rfl).1
  exact h.trans (by rfl)

/-- C9: every call of the SomeSQL entry function operates on the one shared
instance: a model registered through one call (under the table pointer set
by that call) is visible to a later call without a table argument, and the
connect payload of that later call carries it; passing a table name to the
entry function changes nothing but the active-table pointer, and passing no
name returns the instance unchanged. -/
theorem someSQL_shared_instance :
    (∀ (g : Option SInstance) (tname : String) (m : List DataModel),
      lookupModel (someSQLEntry (some (registerModel (someSQLEntry g (some tname)) m)) none)
          tname = some m ∧
      (connectPayload (someSQLEntry (some (registerModel (someSQLEntry g (some tname)) m))
          none)).connModels
        = (tname, m) :: (someSQLEntry g (some tname)).models) ∧
    (∀ (i : SInstance) (n : String),
      someSQLEntry (some i) (some n) = { i with activeTable := n }) ∧
    (∀ i : SInstance, someSQLEntry (some i) none = i) := by
  refine ⟨?_, ?_, ?_⟩
  · intro g tname m
    constructor
    · simp [lookupModel, someSQLEntry, registerModel]
    · simp [connectPayload, someSQLEntry, registerModel]
  · intro i n
    rfl
  · intro i
    rfl

theorem evalConnected_all_and (r : Row) (rest : List (Connector × Cond)) :
    ∀ acc : Bool, (∀ cc ∈ rest, cc.1 = Connector.cAnd) →
    (evalConnected r acc rest = true ↔
      acc = true ∧ ∀ cc ∈ rest, evalCond r cc.2 = true) := by
  induction rest with
  | nil => intro acc _; simp [evalConnected]
  | cons cc rest ih =>
    intro acc hconn
    obtain ⟨conn, c⟩ := cc
    have hc : conn = Connector.cAnd := hconn (conn, c) (List.mem_cons_self _ _)
    subst hc
    simp only [evalConnected]
    rw [ih (acc && evalCond r c) (fun cc h => hconn cc (List.mem_cons_of_mem _ h))]
    simp only [Bool.and_eq_true, List.forall_mem_cons]
    tauto

theorem evalConnected_all_or (r : Row) (rest : List (Connector × Cond)) :
    ∀ acc : Bool, (∀ cc ∈ rest, cc.1 = Connector.cOr) →
    (evalConnected r acc rest = true ↔
      acc = true ∨ ∃ cc ∈ rest, evalCond r cc.2 = true) := by
  induction rest with
  | nil => intro acc _; simp [evalConnected]
  | cons cc rest ih =>
    intro acc hconn
    obtain ⟨conn, c⟩ := cc
    have hc : conn = Connector.cOr := hconn (conn, c) (List.mem_cons_self _ _)
    subst hc
    simp only [evalConnected]
    rw [ih (acc || evalCond r c) (fun cc h => hconn cc (List.mem_cons_of_mem _ h))]
    simp only [Bool.or_eq_true, List.mem_cons]
    constructor
    · rintro ((ha | hb) | ⟨cc, hcc, he⟩)
      · exact Or.inl ha
      · exact Or.inr ⟨(Connector.cOr, c), Or.inl rfl, hb⟩
      · exact Or.inr ⟨cc, Or.inr hcc, he⟩
    · rintro (ha | ⟨cc, hcc | hcc, he⟩)
      · exact Or.inl (Or.inl ha)
      · subst hcc; exact Or.inl (Or.inr he)
      · exact Or.inr ⟨cc, hcc, he⟩

theorem evalLeaf_eq_int (r : Row) (col : String) (n : Int) :
    (evalLeaf r col .opEq (.vInt n) = true) ↔ lookupRow r col = some (.vInt n) := by
  unfold evalLeaf
  cases h : lookupRow r col with
  | none => simp
  | some a => simp [valueTest, valueBeq_iff]

theorem evalLeaf_gt_int (r : Row) (col : String) (n : Int) :
    (evalLeaf r col .opGt (.vInt n) = true) ↔
      ∃ m : Int, lookupRow r col = some (.vInt m) ∧ n < m := by
  unfold evalLeaf
  cases h : lookupRow r col with
  | none => simp
  | some a => cases a <;> simp [valueTest]

/-- C2: where-tree evaluation matches direct boolean evaluation.  The tree
`[["a","=",1],"and",["b",">",0]]` selects exactly the rows where column a
equals 1 and column b exceeds 0; the `or` variant selects exactly the union
of the two leaf filters; a connected sequence whose connectors are all
"and" is true iff every child is true, an all-"or" sequence is true iff
some child is true; mixed sequences evaluate strictly left to right with no
precedence, so `c1 or c2 and c3` means `(c1 or c2) and c3`. -/
theorem where_matches_boolean_eval :
    (∀ ca, compileCond (.group (.leaf "a" "=" (.vInt 1)) [("and", .leaf "b" ">" (.vInt 0))])
        = Except.ok ca →
      ∀ (rows : List Row) (r : Row),
        r ∈ whereFilter (some ca) rows ↔
          r ∈ rows ∧ lookupRow r "a" = some (.vInt 1) ∧
            ∃ m : Int, lookupRow r "b" = some (.vInt m) ∧ 0 < m) ∧
    (∀ co, compileCond (.group (.leaf "a" "=" (.vInt 1)) [("or", .leaf "b" ">" (.vInt 0))])
        = Except.ok co →
      ∀ (rows : List Row) (r : Row),
        r ∈ whereFilter (some co) rows ↔
          (r ∈ whereFilter (some (.leaf "a" .opEq (.vInt 1))) rows ∨
           r ∈ whereFilter (some (.leaf "b" .opGt (.vInt 0))) rows)) ∧
    (∀ (r : Row) (first : Cond) (rest : List (Connector × Cond)),
      (∀ cc ∈ rest, cc.1 = Connector.cAnd) →
      (evalCond r (.group first rest) = true ↔
        evalCond r first = true ∧ ∀ cc ∈ rest, evalCond r cc.2 = true)) ∧
    (∀ (r : Row) (first : Cond) (rest : List (Connector × Cond)),
      (∀ cc ∈ rest, cc.1 = Connector.cOr) →
      (evalCond r (.group first rest) = true ↔
        (evalCond r first = true ∨ ∃ cc ∈ rest, evalCond r cc.2 = true))) ∧
    (∀ (r : Row) (c1 c2 c3 : Cond),
      evalCond r (.group c1 [(.cOr, c2), (.cAnd, c3)])
        = ((evalCond r c1 || evalCond r c2) && evalCond r c3)) := by
  refine ⟨?_, ?_, ?_, ?_, ?_⟩
  · intro ca hca rows r
    have hexp : Cond.group (.leaf "a" .opEq (.vInt 1)) [(.cAnd, .leaf "b" .opGt (.vInt 0))]
        = ca := Except.ok.inj hca
    subst hexp
    simp only [whereFilter, List.mem_filter, evalCond, evalConnected, Bool.and_eq_true]
    rw [evalLeaf_eq_int, evalLeaf_gt_int]
  · intro co hco rows r
    have hexp : Cond.group (.leaf "a" .opEq (.vInt 1)) [(.cOr, .leaf "b" .opGt (.vInt 0))]
        = co := Except.ok.inj hco
    subst hexp
    simp only [whereFilter, List.mem_filter, evalCond, evalConnected, Bool.or_eq_true]
    tauto
  · intro r first rest hconn
    simp only [evalCond]
    exact evalConnected_all_and r rest (evalCond r first) hconn
  · intro r first rest hconn
    simp only [evalCond]
    exact evalConnected_all_or r rest (evalCond r first) hconn
  · intro r c1 c2 c3
    simp [evalCond, evalConnected]

/-- Witness for C2 on a concrete row set: the and-tree keeps the row
satisfying both leaves and rejects the row missing column b. -/
theorem where_matches_boolean_eval_witness :
    (([("a", Value.vInt 1), ("b", Value.vInt 5)] : Row)
      ∈ whereFilter (some (.group (.leaf "a" .opEq (.vInt 1))
          [(.cAnd, .leaf "b" .opGt (.vInt 0))]))
        [[("a", Value.vInt 1), ("b", Value.vInt 5)], [("a", Value.vInt 1)]]) ∧
    ¬ (([("a", Value.vInt 1)] : Row)
      ∈ whereFilter (some (.group (.leaf "a" .opEq (.vInt 1))
          [(.cAnd, .leaf "b" .opGt (.vInt 0))]))
        [[("a", Value.vInt 1), ("b", Value.vInt 5)], [("a", Value.vInt 1)]]) := by
  have h := where_matches_boolean_eval.1
    (Cond.group (.leaf "a" .opEq (.vInt 1)) [(.cAnd, .leaf "b" .opGt (.vInt 0))]) rfl
  constructor
  · exact (h [[("a", Value.vInt 1), ("b", Value.vInt 5)], [("a", Value.vInt 1)]]
      [("a", Value.vInt 1), ("b", Value.vInt 5)]).mpr
      ⟨by simp, by decide, 5, by decide, by decide⟩
  · intro hmem
    obtain ⟨_, _, m, hm, _⟩ := (h [[("a", Value.vInt 1), ("b", Value.vInt 5)],
      [("a", Value.vInt 1)]] [("a", Value.vInt 1)]).mp hmem
    rw [show lookupRow [("a", Value.vInt 1)] "b" = none from rfl] at hm
    exact absurd hm (by simp)

/-- Concrete left table of the join example: rows id 1 and id 2. -/
def tableA : Table :=
  ⟨"A", [⟨"id", .tInt, none, ["pk"]⟩], [[("id", .vInt 1)], [("id", .vInt 2)]]⟩

/-- Concrete right table of the join example: one row aid 1, val "x". -/
def tableB : Table :=
  ⟨"B", [⟨"aid", .tInt, none, []⟩, ⟨"val", .tString, none, []⟩],
   [[("aid", .vInt 1), ("val", .vStr "x")]]⟩

/-- Two-table database of the join example. -/
def dbAB : DB := ⟨[tableA, tableB], [], none⟩

/-- Select query joining table B onto the active table on A.id = B.aid. -/
def joinQ (jt : JoinType) : Query :=
  { action := .select none, joinArg := some ⟨jt, "B", some ("A.id", "=", "B.aid")⟩ }

/-- C3: the join engine keeps exactly the condition-satisfying row pairs for
an inner join, keeps every left row for a left join (padding the right-side
columns of unmatched rows with the absent marker), and on the concrete
example tables the inner join yields exactly one combined row while the
left join yields two, the second with its B-side columns absent. -/
theorem join_inner_left_semantics :
    (∀ (lt rt : Table) (cond : Option (String × Op × String)) (row : Row),
      row ∈ joinRows lt rt .inner cond ↔
        ∃ lr ∈ lt.rows, ∃ rr ∈ rt.rows,
          row = qualifyRow lt.name lr ++ qualifyRow rt.name rr ∧
          evalJoinOn cond row = true) ∧
    (∀ (lt rt : Table) (cond : Option (String × Op × String)),
      ∀ lr ∈ lt.rows, ∃ rest : Row,
        (qualifyRow lt.name lr ++ rest) ∈ joinRows lt rt .left cond) ∧
    (∀ (lt rt : Table) (cond : Option (String × Op × String)),
      ∀ lr ∈ lt.rows,
        (∀ rr ∈ rt.rows,
          evalJoinOn cond (qualifyRow lt.name lr ++ qualifyRow rt.name rr) = false) →
        (qualifyRow lt.name lr ++ padRow rt.name rt.model) ∈ joinRows lt rt .left cond) ∧
    (execQuery dbAB "A" (joinQ .inner)
      = (dbAB, Except.ok [[("A.id", .vInt 1), ("B.aid", .vInt 1), ("B.val", .vStr "x")]])) ∧
    (execQuery dbAB "A" (joinQ .left)
      = (dbAB, Except.ok [[("A.id", .vInt 1), ("B.aid", .vInt 1), ("B.val", .vStr "x")],
          [("A.id", .vInt 2), ("B.aid", .vNull), ("B.val", .vNull)]])) := by
  refine ⟨?_, ?_, ?_, rfl, rfl⟩
  · intro lt rt cond row
    simp only [joinRows, List.mem_flatMap, List.mem_filter, List.mem_map]
    constructor
    · rintro ⟨lr, hlr, ⟨rr, hrr, heq⟩, hev⟩
      exact ⟨lr, hlr, rr, hrr, heq.symm, hev⟩
    · rintro ⟨lr, hlr, rr, hrr, heq, hev⟩
      exact ⟨lr, hlr, ⟨rr, hrr, heq.symm⟩, hev⟩
  · intro lt rt cond lr hlr
    by_cases hempty : ((rt.rows.map
        (fun rr => qualifyRow lt.name lr ++ qualifyRow rt.name rr)).filter
          (evalJoinOn cond)).isEmpty = true
    · refine ⟨padRow rt.name rt.model, ?_⟩
      simp only [joinRows, List.mem_flatMap]
      exact ⟨lr, hlr, by simp [hempty]⟩
    · have hne : ((rt.rows.map
          (fun rr => qualifyRow lt.name lr ++ qualifyRow rt.name rr)).filter
            (evalJoinOn cond)) ≠ [] := by
        intro he
        rw [he] at hempty
        exact hempty rfl
      obtain ⟨m, hm⟩ := List.exists_mem_of_ne_nil _ hne
      have hmap := (List.mem_filter.mp hm).1
      obtain ⟨rr, hrr, heq⟩ := List.mem_map.mp hmap
      refine ⟨qualifyRow rt.name rr, ?_⟩
      simp only [joinRows, List.mem_flatMap]
      refine ⟨lr, hlr, ?_⟩
      rw [if_neg (by simpa using hempty)]
      rw [heq]
      exact hm
  · intro lt rt cond lr hlr hall
    have hfil : ((rt.rows.map
        (fun rr => qualifyRow lt.name lr ++ qualifyRow rt.name rr)).filter
          (evalJoinOn cond)) = [] := by
      rw [List.filter_eq_nil_iff]
      intro m hmap
      obtain ⟨rr, hrr, heq⟩ := List.mem_map.mp hmap
      rw [← heq]
      simp [hall rr hrr]
    simp only [joinRows, List.mem_flatMap]
    exact ⟨lr, hlr, by simp [hfil]⟩

/-- Witness for C3: the unmatched left row id 2 appears in the concrete left
join padded with absent B-side columns. -/
theorem join_inner_left_semantics_witness :
    (qualifyRow tableA.name [("id", Value.vInt 2)] ++ padRow tableB.name tableB.model)
      ∈ joinRows tableA tableB .left (some ("A.id", Op.opEq, "B.aid")) := by
  have h := join_inner_left_semantics.2.2.1
  exact h tableA tableB (some ("A.id", Op.opEq, "B.aid")) [("id", Value.vInt 2)]
    (by decide) (by decide)

theorem mem_if_map {rows : List Row} {g : Row → Row} {cond : Row → Bool} {row : Row}
    (h : row ∈ rows.map (fun x => if cond x then g x else x)) :
    row ∈ rows ∨ ∃ x, row = g x := by
  obtain ⟨x, hx, heq⟩ := List.mem_map.mp h
  by_cases hc : cond x = true
  · rw [if_pos hc] at heq
    exact Or.inr ⟨x, heq.symm⟩
  · rw [Bool.not_eq_true] at hc
    rw [hc] at heq
    simp only [Bool.false_eq_true, if_false] at heq
    exact Or.inl (heq ▸ hx)

theorem mem_if_filterMap {rows : List Row} {g : Row → Row} {cond : Row → Bool} {row : Row}
    (h : row ∈ rows.filterMap (fun x => if cond x then some (g x) else none)) :
    ∃ x, row = g x := by
  obtain ⟨x, _, heq⟩ := List.mem_filterMap.mp h
  by_cases hc : cond x = true
  · rw [if_pos hc] at heq
    exact ⟨x, by injection heq with h2; exact h2.symm⟩
  · rw [Bool.not_eq_true] at hc
    rw [hc] at heq
    simp at heq

/-- Both write shapes of an upsert (append of one new row, in-place map of
matched rows) only store images of coerced rows under the given callback. -/
theorem upsert_finish_append (t : Table) (f : Row → Row) (m : Row) :
    (∀ row ∈ t.rows ++ [f (coerceRow t.model m)],
        row ∈ t.rows ∨ ∃ m2 : Row, row = f (coerceRow t.model m2)) ∧
    (∀ row ∈ [f (coerceRow t.model m)],
        ∃ m2 : Row, row = f (coerceRow t.model m2)) := by
  constructor
  · intro row hrow
    rcases List.mem_append.mp hrow with hr | hr
    · exact Or.inl hr
    · exact Or.inr ⟨m, by simpa using hr⟩
  · intro row hrow
    exact ⟨m, by simpa using hrow⟩

theorem upsert_finish_map (t : Table) (f : Row → Row) (r : Row)
    (cond : Row → Bool) :
    (∀ row ∈ t.rows.map (fun x =>
        if cond x then f (coerceRow t.model (mergeRow x r)) else x),
        row ∈ t.rows ∨ ∃ m : Row, row = f (coerceRow t.model m)) ∧
    (∀ row ∈ t.rows.filterMap (fun x =>
        if cond x then some (f (coerceRow t.model (mergeRow x r))) else none),
        ∃ m : Row, row = f (coerceRow t.model m)) := by
  constructor
  · intro row hrow
    rcases mem_if_map hrow with hr | ⟨x, hx⟩
    · exact Or.inl hr
    · exact Or.inr ⟨mergeRow x r, hx⟩
  · intro row hrow
    obtain ⟨x, hx⟩ := mem_if_filterMap hrow
    exact ⟨mergeRow x r, hx⟩

/-- Every row an upsert outcome writes or reports as changed is the image
under the callback of a model-coerced row. -/
theorem upsertOutcome_mem (f : Row → Row) (t : Table) (wc : Option Cond) (r : Row) :
    (∀ row ∈ (upsertOutcome f t wc r).1,
        row ∈ t.rows ∨ ∃ m : Row, row = f (coerceRow t.model m)) ∧
    (∀ row ∈ (upsertOutcome f t wc r).2,
        ∃ m : Row, row = f (coerceRow t.model m)) := by
  rw [upsertOutcome.eq_def]
  rcases wc with _ | c
  · rcases hpk : pkCol t.model with _ | pc
    · simp only
      exact upsert_finish_append t f r
    · simp only
      rcases hkv : lookupRow r pc.key with _ | v
      · simp only
        exact upsert_finish_append t f _
      · simp only
        by_cases hnull : isNullV v = true
        · rw [if_pos hnull]
          exact upsert_finish_append t f _
        · rw [Bool.not_eq_true] at hnull
          rw [hnull]
          simp only [Bool.false_eq_true, if_false]
          by_cases hany : t.rows.any (sameKeyVal pc v) = true
          · rw [if_pos hany]
            exact upsert_finish_map t f r (sameKeyVal pc v)
          · rw [Bool.not_eq_true] at hany
            rw [hany]
            simp only [Bool.false_eq_true, if_false]
            exact upsert_finish_append t f r
  · simp only
    exact upsert_finish_map t f r (fun row => evalCond row c)

/-- C10: every row written by an upsert (keyed update, keyed insert,
generated-key insert, and where-clause update alike) is the value the
rowFilter callback returned on the model-coerced, default-filled row — a
row reaches the store only through rowFilter after coercion; `loadJS` is
exactly one upsert exec per input row, and `loadCSV` parses its text
against the table model and feeds the same per-row path. -/
theorem rowFilter_after_coercion :
    (∀ (rf : Option (Row → Row)) (t : Table) (wc : Option Cond) (r : Row)
        (t2 : Table) (chg : List Row),
      upsertAction rf t wc r = Except.ok (t2, chg) →
      (∀ row ∈ t2.rows, row ∈ t.rows ∨
        ∃ m : Row, row = (rf.getD id) (coerceRow t.model m)) ∧
      (∀ row ∈ chg, ∃ m : Row, row = (rf.getD id) (coerceRow t.model m))) ∧
    (∀ (db : DB) (tn : String) (rows : List Row),
      loadJS db tn rows
        = rows.foldl (fun d r => (execQuery d tn (upsertQuery r)).1) db) ∧
    (∀ (db : DB) (tn : String) (t : Table) (csv : String),
      findTable db tn = some t →
      loadCSV db tn csv = loadJS db tn (loadCSVRows t.model csv)) := by
  refine ⟨?_, fun db tn rows => rfl, ?_⟩
  · intro rf t wc r t2 chg h
    rw [upsertAction] at h
    split at h
    · exact absurd h (by simp)
    · injection h with h2
      injection h2 with ht2 hchg
      subst ht2
      subst hchg
      exact ⟨fun row hrow => (upsertOutcome_mem (rf.getD id) t wc r).1 row hrow,
        (upsertOutcome_mem (rf.getD id) t wc r).2⟩
  · intro db tn t csv h
    rw [loadCSV, h]

/-- Witness for C10: a concrete upsert through a rowFilter stores exactly
the filtered coerced row. -/
theorem rowFilter_after_coercion_witness :
    ∀ t2 chg, upsertAction (some (fun row => ("seen", Value.vBool true) :: row))
        ⟨"w", [⟨"id", .tInt, none, ["pk"]⟩], []⟩ none [("id", Value.vInt 3)]
        = Except.ok (t2, chg) →
      ∀ row ∈ t2.rows, row ∈ ([] : List Row) ∨
        ∃ m : Row, row = (some (fun row => ("seen", Value.vBool true) :: row)).getD id
          (coerceRow [⟨"id", .tInt, none, ["pk"]⟩] m) := by
  intro t2 chg h
  exact (rowFilter_after_coercion.1 (some (fun row => ("seen", Value.vBool true) :: row))
    ⟨"w", [⟨"id", .tInt, none, ["pk"]⟩], []⟩ none [("id", Value.vInt 3)] t2 chg h).1

/-- Select query of the pagination claim: order by n descending, skip one
row, keep two. -/
def q5 : Query :=
  { action := .select none, order := [("n", OrderDir.desc)],
    limitN := some 2, offsetN := some 1 }

/-- One-table database wrapper. -/
def mkDB (t : Table) : DB := ⟨[t], [], none⟩

theorem findTable_mkDB (t : Table) : findTable (mkDB t) t.name = some t := by
  simp [mkDB, findTable, List.find?_cons]

theorem exec_q5_reduces (t : Table) :
    execQuery (mkDB t) t.name q5
      = (mkDB t, Except.ok
          (((sortRows (rowLeBy [("n", OrderDir.desc)]) t.rows).drop 1).take 2)) := by
  simp [execQuery, findTable_mkDB, compileWhereOpt, firstBadFilter, compileJoin, q5,
    whereFilter, projectRows, applyFilters]

theorem sorted_desc_strict (rows : List Row) (nv : Row → Int)
    (hn : ∀ r ∈ rows, lookupRow r "n" = some (.vInt (nv r)))
    (hdist : rows.Pairwise (fun a b => nv a ≠ nv b))
    (s : List Row) (hperm : s.Perm rows)
    (hsorted : s.Pairwise (fun x y => rowLeBy [("n", OrderDir.desc)] x y = true)) :
    s.Pairwise (fun x y => nv y < nv x) := by
  have h2 : s.Pairwise (fun x y => nv x ≠ nv y) :=
    (List.Perm.pairwise_iff (fun h => Ne.symm h) hperm).mpr hdist
  refine (hsorted.and h2).imp_of_mem ?_
  intro a b ha hb hab
  obtain ⟨hle, hne⟩ := hab
  have hka : lookupRow a "n" = some (.vInt (nv a)) := hn a (hperm.mem_iff.mp ha)
  have hkb : lookupRow b "n" = some (.vInt (nv b)) := hn b (hperm.mem_iff.mp hb)
  have hkne : sortKeyOf (lookupRow a "n") ≠ sortKeyOf (lookupRow b "n") := by
    rw [hka, hkb]
    simp only [sortKeyOf, ne_eq, SortKey.mk.injEq]
    simp [hne]
  rw [rowLeBy, if_neg hkne] at hle
  rw [hka, hkb] at hle
  simp only [sortKeyOf, keyLe, decide_eq_true_eq] at hle
  rcases hle with h | ⟨_, h | ⟨heq, _⟩⟩
  · omega
  · exact h
  · exact absurd heq.symm hne

theorem page_of_sorted (rows : List Row) (nv : Row → Int)
    (hlen : rows.length = 5)
    (hn : ∀ r ∈ rows, lookupRow r "n" = some (.vInt (nv r)))
    (hdist : rows.Pairwise (fun a b => nv a ≠ nv b)) :
    ∀ s : List Row, s.Perm rows →
      s.Pairwise (fun x y => rowLeBy [("n", OrderDir.desc)] x y = true) →
      ∃ a b : Row, (s.drop 1).take 2 = [a, b] ∧ a ∈ rows ∧ b ∈ rows ∧
        rows.countP (fun r => decide (nv a < nv r)) = 1 ∧
        rows.countP (fun r => decide (nv b < nv r)) = 2 ∧
        nv b < nv a := by
  intro s hperm hsorted
  have hstrict := sorted_desc_strict rows nv hn hdist s hperm hsorted
  have hlen5 : s.length = 5 := hperm.length_eq.trans hlen
  rcases s with _ | ⟨r0, _ | ⟨r1, _ | ⟨r2, rest⟩⟩⟩
  · simp at hlen5
  · simp at hlen5
  · simp at hlen5
  rcases hstrict with _ | ⟨h0, hstrict1⟩
  rcases hstrict1 with _ | ⟨h1, hstrict2⟩
  rcases hstrict2 with _ | ⟨h2, _⟩
  refine ⟨r1, r2, rfl, ?_, ?_, ?_, ?_, ?_⟩
  · exact hperm.mem_iff.mp (by simp)
  · exact hperm.mem_iff.mp (by simp)
  · rw [← hperm.countP_eq]
    have hz : (rest.countP (fun r => decide (nv r1 < nv r))) = 0 := by
      rw [List.countP_eq_zero]
      intro x hx
      simp only [decide_eq_true_eq]
      have := h1 x (by simp [hx])
      omega
    have hr0 : nv r1 < nv r0 := h0 r1 (by simp)
    have hr2 : nv r2 < nv r1 := h1 r2 (by simp)
    have hr2n : ¬ (nv r1 < nv r2) := by omega
    have hrr : ¬ (nv r1 < nv r1) := by omega
    simp [List.countP_cons, hz, hr0, hr2n, hrr]
  · rw [← hperm.countP_eq]
    have hz : (rest.countP (fun r => decide (nv r2 < nv r))) = 0 := by
      rw [List.countP_eq_zero]
      intro x hx
      simp only [decide_eq_true_eq]
      have := h2 x hx
      omega
    have hr0 : nv r2 < nv r0 := h0 r2 (by simp)
    have hr1 : nv r2 < nv r1 := h1 r2 (by simp)
    have hrr : ¬ (nv r2 < nv r2) := by omega
    simp [List.countP_cons, hz, hr0, hr1, hrr]
  · exact h1 r2 (by simp)

/-- C5: on a five-row table with pairwise-distinct integer values in column
n, `orderBy({n:"desc"}).limit(2).offset(1)` returns exactly the rows
holding the 2nd and 3rd highest n values (exactly one, resp. two, rows of
the table hold a larger n), in descending order of n: offset and limit
apply after ordering, offset skipping from the front before limit
truncates. -/
theorem orderBy_limit_offset_page (t : Table) (nv : Row → Int)
    (hlen : t.rows.length = 5)
    (hn : ∀ r ∈ t.rows, lookupRow r "n" = some (.vInt (nv r)))
    (hdist : t.rows.Pairwise (fun a b => nv a ≠ nv b)) :
    ∃ a b : Row,
      execQuery (mkDB t) t.name q5 = (mkDB t, Except.ok [a, b]) ∧
      a ∈ t.rows ∧ b ∈ t.rows ∧
      t.rows.countP (fun r => decide (nv a < nv r)) = 1 ∧
      t.rows.countP (fun r => decide (nv b < nv r)) = 2 ∧
      nv b < nv a := by
  obtain ⟨a, b, hpage, ha, hb, hc1, hc2, hab⟩ :=
    page_of_sorted t.rows nv hlen hn hdist
      (sortRows (rowLeBy [("n", OrderDir.desc)]) t.rows)
      (perm_sortRows _ t.rows)
      (sorted_sortRows _ (fun a b => rowLeBy_total _ a b)
        (fun a b c => rowLeBy_trans _ a b c) t.rows)
  exact ⟨a, b, (exec_q5_reduces t).trans (by rw [hpage]), ha, hb, hc1, hc2, hab⟩

/-- Witness for C5 on a concrete five-row table. -/
theorem orderBy_limit_offset_page_witness :
    ∃ a b : Row,
      execQuery (mkDB ⟨"t5", [⟨"n", .tInt, none, []⟩],
          [[("n", Value.vInt 3)], [("n", Value.vInt 10)], [("n", Value.vInt 7)],
           [("n", Value.vInt 1)], [("n", Value.vInt 5)]]⟩) "t5" q5
        = (mkDB ⟨"t5", [⟨"n", .tInt, none, []⟩],
          [[("n", Value.vInt 3)], [("n", Value.vInt 10)], [("n", Value.vInt 7)],
           [("n", Value.vInt 1)], [("n", Value.vInt 5)]]⟩, Except.ok [a, b]) ∧
      a ∈ [[("n", Value.vInt 3)], [("n", Value.vInt 10)], [("n", Value.vInt 7)],
           [("n", Value.vInt 1)], [("n", Value.vInt 5)]] ∧
      b ∈ [[("n", Value.vInt 3)], [("n", Value.vInt 10)], [("n", Value.vInt 7)],
           [("n", Value.vInt 1)], [("n", Value.vInt 5)]] ∧
      ([[("n", Value.vInt 3)], [("n", Value.vInt 10)], [("n", Value.vInt 7)],
        [("n", Value.vInt 1)], [("n", Value.vInt 5)]] : List Row).countP
          (fun r => decide (intValOf r "n" < intValOf r "n")) = 0 := by
  obtain ⟨a, b, h1, h2, h3, _, _, _⟩ := orderBy_limit_offset_page
    ⟨"t5", [⟨"n", .tInt, none, []⟩],
      [[("n", Value.vInt 3)], [("n", Value.vInt 10)], [("n", Value.vInt 7)],
       [("n", Value.vInt 1)], [("n", Value.vInt 5)]]⟩
    (fun r => intValOf r "n") rfl (by decide) (by decide)
  exact ⟨a, b, h1, h2, h3, by decide⟩

theorem compileJoin_err_msg (db : DB) (j : Option JoinArgs) (e : QErr)
    (h : compileJoin db j = Except.error e) : e.msg ≠ "" := by
  cases j with
  | none => exact absurd h (by simp [compileJoin])
  | some ja =>
    simp only [compileJoin] at h
    cases hft : findTable db ja.table with
    | none =>
      rw [hft] at h
      injection h with h2
      rw [← h2]
      exact str_append_ne _ _ (by decide)
    | some rt =>
      rw [hft] at h
      cases hjw : ja.jwhere with
      | none => rw [hjw] at h; exact absurd h (by simp)
      | some tri =>
        rw [hjw] at h
        obtain ⟨l, op, rr⟩ := tri
        simp only at h
        cases hop : compileOp op with
        | none =>
          rw [hop] at h
          injection h with h2
          rw [← h2]
          exact str_append_ne _ _ (by decide)
        | some o => rw [hop] at h; exact absurd h (by simp)

theorem upsertAction_err_msg (rf : Option (Row → Row)) (t : Table) (wc : Option Cond)
    (r : Row) (e : QErr) (h : upsertAction rf t wc r = Except.error e) : e.msg ≠ "" := by
  rw [upsertAction] at h
  split at h
  · injection h with h2
    rw [← h2]
    decide
  · exact absurd h (by simp)

/-- C8: whenever an exec() dispatch fails — missing table, malformed
condition tree, unregistered filter name, missing join target or malformed
join operator, or a write violating the primary-key uniqueness invariant —
the result is an error carrying a nonempty descriptive message and the
database state is left exactly as it was: no mutation is observable on any
error path. -/
theorem exec_error_no_mutation (db : DB) (tn : String) (q : Query) (e : QErr)
    (h : (execQuery db tn q).2 = Except.error e) :
    (execQuery db tn q).1 = db ∧ e.msg ≠ "" := by
  cases hft : findTable db tn with
  | none =>
    simp only [execQuery, hft] at h ⊢
    refine ⟨by trivial, ?_⟩
    injection h with h2
    rw [← h2]
    exact str_append_ne _ _ (by decide)
  | some t =>
    cases hcw : compileWhereOpt q.whereRaw with
    | error e2 =>
      simp only [execQuery, hft, hcw] at h ⊢
      refine ⟨by trivial, ?_⟩
      injection h with h2
      rw [← h2]
      exact compileWhereOpt_err_msg _ _ hcw
    | ok wc =>
      cases hbf : firstBadFilter db q.filters with
      | some n =>
        simp only [execQuery, hft, hcw, hbf] at h ⊢
        refine ⟨by trivial, ?_⟩
        injection h with h2
        rw [← h2]
        exact str_append_ne _ _ (by decide)
      | none =>
        cases hcj : compileJoin db q.joinArg with
        | error e2 =>
          simp only [execQuery, hft, hcw, hbf, hcj] at h ⊢
          refine ⟨by trivial, ?_⟩
          injection h with h2
          rw [← h2]
          exact compileJoin_err_msg _ _ _ hcj
        | ok jn =>
          cases hq : q.action with
          | select cols =>
            simp only [execQuery, hft, hcw, hbf, hcj, hq] at h
            exact absurd h (by simp)
          | upsert r =>
            cases hup : upsertAction db.rowFilterFn t wc r with
            | error e2 =>
              simp only [execQuery, hft, hcw, hbf, hcj, hq, hup] at h ⊢
              refine ⟨by trivial, ?_⟩
              injection h with h2
              rw [← h2]
              exact upsertAction_err_msg _ _ _ _ _ hup
            | ok pair =>
              obtain ⟨t2, chg⟩ := pair
              simp only [execQuery, hft, hcw, hbf, hcj, hq, hup] at h
              exact absurd h (by simp)
          | delete cols =>
            simp only [execQuery, hft, hcw, hbf, hcj, hq] at h
            exact absurd h (by simp)
          | drop =>
            simp only [execQuery, hft, hcw, hbf, hcj, hq] at h
            exact absurd h (by simp)

/-- Witness for C8: a select with an unregistered filter name errors and
leaves a concrete database untouched. -/
theorem exec_error_no_mutation_witness :
    (execQuery (mkDB ⟨"t", [⟨"id", .tInt, none, ["pk"]⟩], [[("id", Value.vInt 1)]]⟩) "t"
        { action := .select none, filters := [("nosuch", none)] }).2
      = Except.error ⟨"filter not supported or registered: " ++ "nosuch"⟩ ∧
    ((execQuery (mkDB ⟨"t", [⟨"id", .tInt, none, ["pk"]⟩], [[("id", Value.vInt 1)]]⟩) "t"
        { action := .select none, filters := [("nosuch", none)] }).1
      = mkDB ⟨"t", [⟨"id", .tInt, none, ["pk"]⟩], [[("id", Value.vInt 1)]]⟩ ∧
      QErr.msg ⟨"filter not supported or registered: " ++ "nosuch"⟩ ≠ "") :=
  ⟨rfl, exec_error_no_mutation
    (mkDB ⟨"t", [⟨"id", .tInt, none, ["pk"]⟩], [[("id", Value.vInt 1)]]⟩) "t"
    { action := .select none, filters := [("nosuch", none)] }
    ⟨"filter not supported or registered: " ++ "nosuch"⟩ rfl⟩

/-- Coercion applied to an optional cell: present values are coerced,
missing cells receive the column default. -/
def coercedAt (c : DataModel) (o : Option Value) : Value :=
  match o with
  | some w => coerceValue c w
  | none => columnDefault c

theorem lookup_coerceRow (model : List DataModel) (r : Row) (c : DataModel) :
    (model.map (fun c => c.key)).Nodup → c ∈ model →
    lookupRow (coerceRow model r) c.key = some (coercedAt c (lookupRow r c.key)) := by
  induction model with
  | nil => intro _ hc; cases hc
  | cons c0 rest ih =>
    intro hnd hc
    rw [List.map_cons, List.nodup_cons] at hnd
    by_cases hkey : c0.key = c.key
    · have hcc : c = c0 := by
        rcases List.mem_cons.mp hc with h | h
        · exact h
        · exact absurd (hkey ▸ List.mem_map_of_mem (fun c => c.key) h) hnd.1
      subst hcc
      cases hl : lookupRow r c.key <;>
        simp [coerceRow, lookupRow, coercedAt, hl]
    · have hcr : c ∈ rest := by
        rcases List.mem_cons.mp hc with h | h
        · exact absurd (h ▸ rfl) hkey
        · exact h
      cases hl0 : lookupRow r c0.key <;>
        simpa [coerceRow, lookupRow, hl0, hkey] using ih hnd.2 hcr

theorem lookup_filter_keyed (k : String) (p q : String × Value → Bool)
    (hpq : ∀ kv : String × Value, kv.1 = k → p kv = q kv) :
    ∀ r : Row, lookupRow (r.filter p) k = lookupRow (r.filter q) k := by
  intro r
  induction r with
  | nil => rfl
  | cons kv rest ih =>
    by_cases hk : kv.1 = k
    · have := hpq kv hk
      by_cases hp : p kv = true
      · rw [List.filter_cons_of_pos hp, List.filter_cons_of_pos (this ▸ hp)]
        simp [lookupRow, hk]
      · rw [Bool.not_eq_true] at hp
        rw [List.filter_cons_of_neg (by simp [hp]),
          List.filter_cons_of_neg (by simp [← this, hp])]
        exact ih
    · by_cases hp : p kv = true <;> by_cases hq : q kv = true
      · rw [List.filter_cons_of_pos hp, List.filter_cons_of_pos hq]
        simpa [lookupRow, hk] using ih
      · rw [List.filter_cons_of_pos hp, List.filter_cons_of_neg (by simp [hq])]
        simpa [lookupRow, hk] using ih
      · rw [List.filter_cons_of_neg (by simp [hp]), List.filter_cons_of_pos hq]
        simpa [lookupRow, hk] using ih
      · rw [List.filter_cons_of_neg (by simp [hp]), List.filter_cons_of_neg (by simp [hq])]
        exact ih

theorem lookupRow_append (a b : Row) (k : String) :
    lookupRow (a ++ b) k
      = match lookupRow a k with
        | some v => some v
        | none => lookupRow b k := by
  induction a with
  | nil => rfl
  | cons kv rest ih =>
    by_cases hk : kv.1 = k
    · simp [lookupRow, hk]
    · simpa [lookupRow, hk] using ih

theorem lookupRow_mergeRow (old new : Row) (k : String) :
    lookupRow (mergeRow old new) k
      = match lookupRow old k with
        | some w => some ((lookupRow new k).getD w)
        | none => lookupRow new k := by
  induction old with
  | nil =>
    have hfil : new.filter (fun kv => (lookupRow ([] : Row) kv.1).isNone) = new := by
      apply List.filter_eq_self.mpr
      intro kv _
      rfl
    simp [mergeRow, hfil, lookupRow]
  | cons kv0 old ih =>
    by_cases hk : kv0.1 = k
    · subst hk
      cases hn : lookupRow new kv0.1 with
      | some w => simp [mergeRow, lookupRow, hn]
      | none => simp [mergeRow, lookupRow, hn]
    · have hfilters := lookup_filter_keyed k
        (fun kv => (lookupRow (kv0 :: old) kv.1).isNone)
        (fun kv => (lookupRow old kv.1).isNone)
        (fun kv hkv => by simp [lookupRow, hkv, hk]) new
      have hstep : lookupRow (mergeRow (kv0 :: old) new) k
          = lookupRow (mergeRow old new) k := by
        simp only [mergeRow, List.map_cons, List.cons_append]
        cases hn : lookupRow new kv0.1 with
        | some w =>
          rw [show ((match (some w : Option Value) with
              | some v => (kv0.1, v)
              | none => kv0) : String × Value) = (kv0.1, w) from rfl]
          rw [show lookupRow ((kv0.1, w) :: (List.map (fun kv =>
              match lookupRow new kv.1 with
              | some v => (kv.1, v)
              | none => kv) old ++ List.filter (fun kv =>
                (lookupRow (kv0 :: old) kv.1).isNone) new)) k
            = lookupRow (List.map (fun kv =>
              match lookupRow new kv.1 with
              | some v => (kv.1, v)
              | none => kv) old ++ List.filter (fun kv =>
                (lookupRow (kv0 :: old) kv.1).isNone) new) k from by
            simp [lookupRow, hk]]
          rw [lookupRow_append, lookupRow_append]
          cases hm : lookupRow (List.map (fun kv =>
              match lookupRow new kv.1 with
              | some v => (kv.1, v)
              | none => kv) old) k with
          | some v => rfl
          | none => simpa using hfilters
        | none =>
          rw [show ((match (none : Option Value) with
              | some v => (kv0.1, v)
              | none => kv0) : String × Value) = kv0 from rfl]
          rw [show lookupRow (kv0 :: (List.map (fun kv =>
              match lookupRow new kv.1 with
              | some v => (kv.1, v)
              | none => kv) old ++ List.filter (fun kv =>
                (lookupRow (kv0 :: old) kv.1).isNone) new)) k
            = lookupRow (List.map (fun kv =>
              match lookupRow new kv.1 with
              | some v => (kv.1, v)
              | none => kv) old ++ List.filter (fun kv =>
                (lookupRow (kv0 :: old) kv.1).isNone) new) k from by
            simp [lookupRow, hk]]
          rw [lookupRow_append, lookupRow_append]
          cases hm : lookupRow (List.map (fun kv =>
              match lookupRow new kv.1 with
              | some v => (kv.1, v)
              | none => kv) old) k with
          | some v => rfl
          | none => simpa using hfilters
      rw [hstep, ih]
      simp [lookupRow, hk]

theorem lookup_mergeRow_new (old new : Row) (k : String) (w : Value)
    (h : lookupRow new k = some w) : lookupRow (mergeRow old new) k = some w := by
  rw [lookupRow_mergeRow]
  cases lookupRow old k <;> simp [h]

/-- Uniqueness invariant: no two rows carry the same present primary-key
value. -/
def keysDistinct (pc : DataModel) (rows : List Row) : Prop :=
  rows.Pairwise (fun x y => ∀ w, lookupRow x pc.key = some w → lookupRow y pc.key ≠ some w)

theorem dupAux_false_iff (pc : DataModel) :
    ∀ rows : List Row, pkDup.dupAux pc rows = false ↔ keysDistinct pc rows := by
  intro rows
  induction rows with
  | nil => simp [pkDup.dupAux, keysDistinct]
  | cons x rest ih =>
    rw [keysDistinct, List.pairwise_cons]
    rw [show pkDup.dupAux pc (x :: rest)
        = ((match lookupRow x pc.key with
            | some v => rest.any (sameKeyVal pc v)
            | none => false) || pkDup.dupAux pc rest) from rfl]
    rw [Bool.or_eq_false_iff]
    rw [ih]
    constructor
    · rintro ⟨hhead, hrest⟩
      refine ⟨?_, hrest⟩
      intro y hy w hw
      rw [hw] at hhead
      simp only at hhead
      have := List.any_eq_false.mp hhead y hy
      intro hc
      exact this ((sameKeyVal_iff pc w y).mpr hc)
    · rintro ⟨hhead, hrest⟩
      refine ⟨?_, hrest⟩
      cases hw : lookupRow x pc.key with
      | none => rfl
      | some w =>
        simp only
        rw [List.any_eq_false]
        intro y hy
        have := hhead y hy w hw
        rw [Bool.not_eq_true, ← Bool.not_eq_true]
        intro hc
        exact this ((sameKeyVal_iff pc w y).mp hc)

theorem pkDup_false_iff (model : List DataModel) (pc : DataModel)
    (hpk : pkCol model = some pc) (rows : List Row) :
    pkDup model rows = false ↔ keysDistinct pc rows := by
  rw [pkDup, hpk]
  exact dupAux_false_iff pc rows

theorem filter_sameKey_small (pc : DataModel) (v : Value) :
    ∀ rows : List Row, keysDistinct pc rows →
      rows.filter (fun x => sameKeyVal pc v x) = [] ∨
      ∃ x0, rows.filter (fun x => sameKeyVal pc v x) = [x0] := by
  intro rows hd
  induction rows with
  | nil => left; rfl
  | cons x rest ih =>
    rw [keysDistinct, List.pairwise_cons] at hd
    obtain ⟨hx, hrest⟩ := hd
    by_cases hxv : sameKeyVal pc v x = true
    · right
      refine ⟨x, ?_⟩
      rw [List.filter_cons_of_pos hxv]
      have hnone : rest.filter (fun y => sameKeyVal pc v y) = [] := by
        rw [List.filter_eq_nil_iff]
        intro y hy hc
        have hv := (sameKeyVal_iff pc v x).mp hxv
        have hcy := (sameKeyVal_iff pc v y).mp hc
        exact hx y hy v hv hcy
      rw [hnone]
    · rw [Bool.not_eq_true] at hxv
      rw [List.filter_cons_of_neg (by simp [hxv])]
      exact ih hrest

theorem filterMap_if (p : α → Bool) (h : α → β) :
    ∀ l : List α,
      l.filterMap (fun x => if p x then some (h x) else none) = (l.filter p).map h := by
  intro l
  induction l with
  | nil => rfl
  | cons x rest ih =>
    by_cases hp : p x = true
    · rw [List.filter_cons_of_pos hp]
      simp [List.filterMap_cons, hp, ih]
    · rw [Bool.not_eq_true] at hp
      rw [List.filter_cons_of_neg (by simp [hp])]
      simp [List.filterMap_cons, hp, ih]

/-- Characterization of one keyed upsert (no where clause, primary-key
value present and non-null, typed, table keys distinct): it succeeds, keeps
the uniqueness invariant, leaves exactly one row carrying the key, and that
row is the coercion of the upsert argument (fresh key) or of its merge into
the unique previously matching row. -/
theorem upsertAction_keyed (t : Table) (pc : DataModel) (r : Row) (v : Value)
    (hpk : pkCol t.model = some pc)
    (hnd : (t.model.map (fun c => c.key)).Nodup)
    (hkey : lookupRow r pc.key = some v)
    (hnull : isNullV v = false)
    (htyv : typeMatches pc.type v = true)
    (huniq : keysDistinct pc t.rows) :
    ∃ (rows2 : List Row) (nrow : Row),
      upsertAction none t none r = Except.ok ({ t with rows := rows2 }, [nrow]) ∧
      keysDistinct pc rows2 ∧
      rows2.filter (fun x => sameKeyVal pc v x) = [nrow] ∧
      ((t.rows.filter (fun x => sameKeyVal pc v x) = [] ∧ nrow = coerceRow t.model r) ∨
       (∃ x0, t.rows.filter (fun x => sameKeyVal pc v x) = [x0] ∧
          nrow = coerceRow t.model (mergeRow x0 r))) := by
  have hpc : pc ∈ t.model := List.mem_of_find?_eq_some hpk
  have hkeyOf : ∀ m : Row, lookupRow m pc.key = some v →
      lookupRow (coerceRow t.model m) pc.key = some v := by
    intro m hm
    rw [lookup_coerceRow t.model m pc hnd hpc, hm]
    simp [coercedAt, coerceValue, htyv]
  rcases filter_sameKey_small pc v t.rows huniq with hfe | ⟨x0, hf1⟩
  · have hallne : ∀ x ∈ t.rows, sameKeyVal pc v x = false := by
      intro x hx
      have := List.filter_eq_nil_iff.mp hfe x hx
      simpa using this
    have hany : t.rows.any (sameKeyVal pc v) = false :=
      List.any_eq_false.mpr (fun x hx => by simp [hallne x hx])
    have hnrowkey : lookupRow (coerceRow t.model r) pc.key = some v := hkeyOf r hkey
    have hout : upsertOutcome id t none r
        = (t.rows ++ [coerceRow t.model r], [coerceRow t.model r]) := by
      rw [upsertOutcome.eq_def]
      simp only [hpk, hkey, hnull, Bool.false_eq_true, if_false, hany, id_eq]
    have hdist2 : keysDistinct pc (t.rows ++ [coerceRow t.model r]) := by
      rw [keysDistinct, List.pairwise_append]
      refine ⟨huniq, by simp [keysDistinct], ?_⟩
      intro x hx y hy w hw
      rw [List.mem_singleton] at hy
      subst hy
      rw [hnrowkey]
      intro hc
      injection hc with hc2
      subst hc2
      exact absurd ((sameKeyVal_iff pc v x).mpr hw) (by simp [hallne x hx])
    have hdup : pkDup t.model (t.rows ++ [coerceRow t.model r]) = false :=
      (pkDup_false_iff t.model pc hpk _).mpr hdist2
    refine ⟨t.rows ++ [coerceRow t.model r], coerceRow t.model r, ?_, hdist2, ?_,
      Or.inl ⟨hfe, rfl⟩⟩
    · rw [upsertAction]
      rw [show ((none : Option (Row → Row)).getD id) = id from rfl]
      rw [hout]
      simp only [hdup, Bool.false_eq_true, if_false]
    · rw [List.filter_append, hfe]
      simp [(sameKeyVal_iff pc v _).mpr hnrowkey]
  · have hx0f : x0 ∈ t.rows.filter (fun x => sameKeyVal pc v x) := by
      rw [hf1]
      exact List.mem_singleton_self x0
    have hx0mem : x0 ∈ t.rows := (List.mem_filter.mp hx0f).1
    have hx0v : sameKeyVal pc v x0 = true := (List.mem_filter.mp hx0f).2
    have hany : t.rows.any (sameKeyVal pc v) = true :=
      List.any_eq_true.mpr ⟨x0, hx0mem, hx0v⟩
    have hmergekey : ∀ x : Row, lookupRow x pc.key = some v →
        lookupRow (mergeRow x r) pc.key = some v := by
      intro x hx
      rw [lookupRow_mergeRow, hx, hkey]
      rfl
    have hgkey : ∀ x : Row,
        lookupRow (if sameKeyVal pc v x then coerceRow t.model (mergeRow x r) else x) pc.key
          = lookupRow x pc.key := by
      intro x
      by_cases hxx : sameKeyVal pc v x = true
      · rw [if_pos hxx]
        have hxv : lookupRow x pc.key = some v := (sameKeyVal_iff pc v x).mp hxx
        rw [hxv]
        exact hkeyOf (mergeRow x r) (hmergekey x hxv)
      · rw [Bool.not_eq_true] at hxx
        rw [hxx]
        simp
    have hout : upsertOutcome id t none r
        = (t.rows.map (fun x =>
              if sameKeyVal pc v x then coerceRow t.model (mergeRow x r) else x),
           t.rows.filterMap (fun x =>
              if sameKeyVal pc v x then some (coerceRow t.model (mergeRow x r)) else none)) := by
      rw [upsertOutcome.eq_def]
      simp only [hpk, hkey, hnull, Bool.false_eq_true, if_false, hany, if_true, id_eq]
    have hdist2 : keysDistinct pc (t.rows.map (fun x =>
        if sameKeyVal pc v x then coerceRow t.model (mergeRow x r) else x)) := by
      rw [keysDistinct, List.pairwise_map]
      refine huniq.imp_of_mem ?_
      intro a b _ _ hab w hw
      rw [hgkey a] at hw
      rw [hgkey b]
      exact hab w hw
    have hdup : pkDup t.model _ = false :=
      (pkDup_false_iff t.model pc hpk _).mpr hdist2
    have hfmap : (t.rows.map (fun x =>
          if sameKeyVal pc v x then coerceRow t.model (mergeRow x r) else x)).filter
            (fun x => sameKeyVal pc v x)
        = [coerceRow t.model (mergeRow x0 r)] := by
      rw [List.filter_map]
      have hcong : t.rows.filter ((fun x => sameKeyVal pc v x) ∘ (fun x =>
            if sameKeyVal pc v x then coerceRow t.model (mergeRow x r) else x))
          = t.rows.filter (fun x => sameKeyVal pc v x) := by
        apply List.filter_congr
        intro x _
        simp only [Function.comp_apply]
        show (match lookupRow (if sameKeyVal pc v x = true then
              coerceRow t.model (mergeRow x r) else x) pc.key with
          | some w => valueBeq w v
          | none => false) = sameKeyVal pc v x
        rw [hgkey x]
        rfl
      rw [hcong, hf1]
      simp only [List.map_cons, List.map_nil, if_pos hx0v]
    have hchg : t.rows.filterMap (fun x =>
          if sameKeyVal pc v x then some (coerceRow t.model (mergeRow x r)) else none)
        = [coerceRow t.model (mergeRow x0 r)] := by
      rw [filterMap_if, hf1]
      simp
    refine ⟨_, coerceRow t.model (mergeRow x0 r), ?_, hdist2, hfmap,
      Or.inr ⟨x0, hf1, rfl⟩⟩
    rw [upsertAction]
    rw [show ((none : Option (Row → Row)).getD id) = id from rfl]
    rw [hout]
    simp only [hdup, Bool.false_eq_true, if_false, hchg]

theorem exec_upsert_reduce (db : DB) (tn : String) (t : Table) (r : Row)
    (ht : findTable db tn = some t) :
    execQuery db tn (upsertQuery r)
      = match upsertAction db.rowFilterFn t none r with
        | .error e => (db, .error e)
        | .ok (t2, chg) => (replaceTable db t2, .ok chg) := by
  simp [execQuery, ht, compileWhereOpt, firstBadFilter, compileJoin, upsertQuery]

/-- C1: upserting twice with the same primary-key value (rows typed against
the model, current table satisfying the uniqueness invariant, no rowFilter
registered) succeeds both times and leaves exactly one stored row carrying
that key; on that row every field present in the second upsert holds the
second value and every field present only in the first upsert retains the
first value. -/
theorem upsert_twice_merges (db : DB) (tn : String) (t : Table) (pc : DataModel)
    (r1 r2 : Row) (v : Value)
    (hdb : db.rowFilterFn = none)
    (ht : findTable db tn = some t)
    (hpk : pkCol t.model = some pc)
    (hnd : (t.model.map (fun c => c.key)).Nodup)
    (hv1 : lookupRow r1 pc.key = some v)
    (hv2 : lookupRow r2 pc.key = some v)
    (hnull : isNullV v = false)
    (hty1 : ∀ c ∈ t.model, ∀ w, lookupRow r1 c.key = some w → typeMatches c.type w = true)
    (hty2 : ∀ c ∈ t.model, ∀ w, lookupRow r2 c.key = some w → typeMatches c.type w = true)
    (huniq : keysDistinct pc t.rows) :
    ∃ (db1 db2 : DB) (t2 : Table) (nrow : Row) (chg1 : List Row),
      execQuery db tn (upsertQuery r1) = (db1, Except.ok chg1) ∧
      execQuery db1 tn (upsertQuery r2) = (db2, Except.ok [nrow]) ∧
      findTable db2 tn = some t2 ∧
      t2.rows.filter (fun x => sameKeyVal pc v x) = [nrow] ∧
      (∀ c ∈ t.model, ∀ w, lookupRow r2 c.key = some w → lookupRow nrow c.key = some w) ∧
      (∀ c ∈ t.model, ∀ w, lookupRow r1 c.key = some w → lookupRow r2 c.key = none →
        lookupRow nrow c.key = some w) := by
  have hpcmem : pc ∈ t.model := List.mem_of_find?_eq_some hpk
  have htyv1 : typeMatches pc.type v = true := hty1 pc hpcmem v hv1
  obtain ⟨rows2, nrow1, hact1, hd2, hfil1, hcase1⟩ :=
    upsertAction_keyed t pc r1 v hpk hnd hv1 hnull htyv1 huniq
  have hstep1 : execQuery db tn (upsertQuery r1)
      = (replaceTable db { t with rows := rows2 }, Except.ok [nrow1]) := by
    rw [exec_upsert_reduce db tn t r1 ht, hdb, hact1]
  set t1 : Table := { t with rows := rows2 } with ht1def
  have hft1 : findTable (replaceTable db t1) tn = some t1 :=
    findTable_replaceTable db tn t t1 ht rfl
  have hdb1 : (replaceTable db t1).rowFilterFn = none := hdb
  obtain ⟨rows3, nrow2, hact2, hd3, hfil2, hcase2⟩ :=
    upsertAction_keyed t1 pc r2 v hpk hnd hv2 hnull (hty2 pc hpcmem v hv2) hd2
  have hstep2 : execQuery (replaceTable db t1) tn (upsertQuery r2)
      = (replaceTable (replaceTable db t1) { t1 with rows := rows3 },
         Except.ok [nrow2]) := by
    rw [exec_upsert_reduce _ tn t1 r2 hft1, hdb1, hact2]
  have hnrow2eq : nrow2 = coerceRow t.model (mergeRow nrow1 r2) := by
    rcases hcase2 with ⟨hemp, _⟩ | ⟨x0, hfx, heq⟩
    · have hemp2 : rows2.filter (fun x => sameKeyVal pc v x) = [] := hemp
      rw [hfil1] at hemp2
      exact absurd hemp2 (by simp)
    · have hfx2 : rows2.filter (fun x => sameKeyVal pc v x) = [x0] := hfx
      rw [hfil1] at hfx2
      injection hfx2 with hx0 _
      rw [heq, ← hx0]
  refine ⟨replaceTable db t1, replaceTable (replaceTable db t1) { t1 with rows := rows3 },
    { t1 with rows := rows3 }, nrow2, [nrow1], hstep1, hstep2, ?_, ?_, ?_, ?_⟩
  · exact findTable_replaceTable _ tn t1 _ hft1 rfl
  · exact hfil2
  · intro c hc w hw
    rw [hnrow2eq]
    rw [lookup_coerceRow t.model _ c hnd hc]
    rw [show lookupRow (mergeRow nrow1 r2) c.key = some w from
      lookup_mergeRow_new _ _ _ _ hw]
    simp [coercedAt, coerceValue, hty2 c hc w hw]
  · intro c hc w hw1 hw2
    have hn1 : lookupRow nrow1 c.key = some w := by
      rcases hcase1 with ⟨_, heq⟩ | ⟨x0, _, heq⟩
      · rw [heq, lookup_coerceRow t.model _ c hnd hc, hw1]
        simp [coercedAt, coerceValue, hty1 c hc w hw1]
      · rw [heq, lookup_coerceRow t.model _ c hnd hc,
          show lookupRow (mergeRow x0 r1) c.key = some w from
            lookup_mergeRow_new _ _ _ _ hw1]
        simp [coercedAt, coerceValue, hty1 c hc w hw1]
    rw [hnrow2eq, lookup_coerceRow t.model _ c hnd hc]
    rw [lookupRow_mergeRow, hn1, hw2]
    simp [coercedAt, coerceValue, hty1 c hc w hw1]

/-- Concrete model of the upsert witness: integer primary key plus a name
and a balance column. -/
def wModel : List DataModel :=
  [⟨"id", .tInt, none, ["pk"]⟩, ⟨"name", .tString, none, []⟩, ⟨"bal", .tInt, none, []⟩]

/-- Empty concrete table of the upsert witness. -/
def wTable : Table := ⟨"users", wModel, []⟩

/-- Witness for C1: two concrete upserts with the same key merge into one
stored row. -/
theorem upsert_twice_merges_witness :
    ∃ (db1 db2 : DB) (t2 : Table) (nrow : Row) (chg1 : List Row),
      execQuery (mkDB wTable) "users"
          (upsertQuery [("id", .vInt 1), ("name", .vStr "a")]) = (db1, Except.ok chg1) ∧
      execQuery db1 "users"
          (upsertQuery [("id", .vInt 1), ("bal", .vInt 5)]) = (db2, Except.ok [nrow]) ∧
      findTable db2 "users" = some t2 ∧
      t2.rows.filter (fun x =>
        sameKeyVal ⟨"id", .tInt, none, ["pk"]⟩ (.vInt 1) x) = [nrow] ∧
      (∀ c ∈ wModel, ∀ w,
        lookupRow [("id", Value.vInt 1), ("bal", Value.vInt 5)] c.key = some w →
        lookupRow nrow c.key = some w) ∧
      (∀ c ∈ wModel, ∀ w,
        lookupRow [("id", Value.vInt 1), ("name", Value.vStr "a")] c.key = some w →
        lookupRow [("id", Value.vInt 1), ("bal", Value.vInt 5)] c.key = none →
        lookupRow nrow c.key = some w) :=
  upsert_twice_merges (mkDB wTable) "users" wTable ⟨"id", .tInt, none, ["pk"]⟩
    [("id", .vInt 1), ("name", .vStr "a")] [("id", .vInt 1), ("bal", .vInt 5)] (.vInt 1)
    rfl (findTable_mkDB wTable) rfl (by decide) rfl rfl rfl
    (by
      intro c hc w hw
      fin_cases hc <;> simp [lookupRow] at hw <;> (try subst hw) <;> decide)
    (by
      intro c hc w hw
      fin_cases hc <;> simp [lookupRow] at hw <;> (try subst hw) <;> decide)
    List.Pairwise.nil

/-- Continuation condition of the literal parser: parsing resumes at the
end of input or at a non-digit delimiter. -/
def restOK : List Char → Prop
  | [] => True
  | c :: _ => digitVal c = none

theorem digitVal_digitChar (d : Nat) (hd : d < 10) : digitVal (digitChar d) = some d := by
  interval_cases d <;> decide

theorem digit_char_facts (c : Char) (h : (digitVal c).isSome = true) :
    c ≠ dq ∧ c ≠ sq ∧ c ≠ nl ∧ c ≠ ',' ∧ c ≠ ']' ∧ c ≠ mapClose ∧ c ≠ mapOpen ∧
    c ≠ '[' ∧ c ≠ 't' ∧ c ≠ 'f' ∧ c ≠ 'n' ∧ c ≠ '-' ∧ c ≠ ':' := by
  rw [digitVal] at h
  split at h
  · rename_i hc
    refine ⟨?_, ?_, ?_, ?_, ?_, ?_, ?_, ?_, ?_, ?_, ?_, ?_, ?_⟩ <;>
      (intro he; subst he; exact absurd hc (by decide))
  · simp at h

theorem natCharsAux_acc (n : Nat) : ∀ (fuel : Nat) (acc : List Char), n < fuel →
    natCharsAux fuel n acc = natChars n ++ acc := by
  induction n using Nat.strong_induction_on with
  | _ n ih =>
    intro fuel acc hfuel
    obtain ⟨f, rfl⟩ : ∃ f, fuel = f + 1 := ⟨fuel - 1, by omega⟩
    by_cases h10 : n < 10
    · simp [natCharsAux, natChars, h10]
    · have hdiv : n / 10 < n := Nat.div_lt_self (by omega) (by omega)
      rw [show natCharsAux (f + 1) n acc
          = natCharsAux f (n / 10) (digitChar (n % 10) :: acc) from by
        simp [natCharsAux, h10]]
      rw [ih (n / 10) hdiv f _ (by omega)]
      rw [show natChars n = natCharsAux n (n / 10) [digitChar (n % 10)] from by
        rw [natChars]
        simp [natCharsAux, h10]]
      rw [ih (n / 10) hdiv n _ (by omega)]
      simp

theorem natChars_small (n : Nat) (h : n < 10) : natChars n = [digitChar n] := by
  simp [natChars, natCharsAux, h]

theorem natChars_canon (n : Nat) (h : 10 ≤ n) :
    natChars n = natChars (n / 10) ++ [digitChar (n % 10)] := by
  have hdiv : n / 10 < n := Nat.div_lt_self (by omega) (by omega)
  rw [natChars]
  rw [show natCharsAux (n + 1) n [] = natCharsAux n (n / 10) [digitChar (n % 10)] from by
    simp [natCharsAux, Nat.not_lt.mpr h]]
  exact natCharsAux_acc (n / 10) n _ (by omega)

theorem natChars_digits (n : Nat) : ∀ c ∈ natChars n, (digitVal c).isSome = true := by
  induction n using Nat.strong_induction_on with
  | _ n ih =>
    intro c hc
    by_cases h10 : n < 10
    · rw [natChars_small n h10] at hc
      rw [List.mem_singleton] at hc
      subst hc
      rw [digitVal_digitChar n h10]
      rfl
    · rw [natChars_canon n (by omega)] at hc
      rcases List.mem_append.mp hc with h | h
      · exact ih (n / 10) (Nat.div_lt_self (by omega) (by omega)) c h
      · rw [List.mem_singleton] at h
        subst h
        rw [digitVal_digitChar _ (Nat.mod_lt n (by omega))]
        rfl

theorem natChars_ne_nil (n : Nat) : natChars n ≠ [] := by
  by_cases h10 : n < 10
  · rw [natChars_small n h10]
    simp
  · rw [natChars_canon n (by omega)]
    simp

theorem foldl_natChars (n : Nat) :
    (natChars n).foldl (fun a c => a * 10 + (digitVal c).getD 0) 0 = n := by
  induction n using Nat.strong_induction_on with
  | _ n ih =>
    by_cases h10 : n < 10
    · rw [natChars_small n h10]
      simp [digitVal_digitChar n h10]
    · rw [natChars_canon n (by omega), List.foldl_append]
      rw [ih (n / 10) (Nat.div_lt_self (by omega) (by omega))]
      simp [digitVal_digitChar _ (Nat.mod_lt n (by omega))]
      omega

theorem takeDigits_all (xs : List Char) (h : ∀ c ∈ xs, (digitVal c).isSome = true)
    (rest : List Char) (hrest : restOK rest) :
    takeDigits (xs ++ rest) = (xs.map (fun c => (digitVal c).getD 0), rest) := by
  induction xs with
  | nil =>
    cases rest with
    | nil => rfl
    | cons c r =>
      have : digitVal c = none := hrest
      simp [takeDigits, this]
  | cons c xs ih =>
    obtain ⟨d, hd⟩ := Option.isSome_iff_exists.mp (h c (List.mem_cons_self _ _))
    rw [List.cons_append]
    rw [show takeDigits (c :: (xs ++ rest))
        = match digitVal c with
          | some d =>
            match takeDigits (xs ++ rest) with
            | (ds, r) => (d :: ds, r)
          | none => ([], c :: (xs ++ rest)) from rfl]
    rw [hd, ih (fun c2 h2 => h c2 (List.mem_cons_of_mem _ h2))]
    simp [hd]

theorem digitsToNat_map (xs : List Char) :
    digitsToNat (xs.map (fun c => (digitVal c).getD 0))
      = xs.foldl (fun a c => a * 10 + (digitVal c).getD 0) 0 := by
  rw [digitsToNat, List.foldl_map]

theorem parseIntChars_round (i : Int) (rest : List Char) (hrest : restOK rest) :
    parseIntChars (intChars i ++ rest) = some (i, rest) := by
  cases i with
  | ofNat n =>
    obtain ⟨c, cs, hc⟩ := List.exists_cons_of_ne_nil (natChars_ne_nil n)
    have hcd : (digitVal c).isSome = true :=
      natChars_digits n c (by rw [hc]; exact List.mem_cons_self _ _)
    have hneg : ¬ (c = '-') := (digit_char_facts c hcd).2.2.2.2.2.2.2.2.2.2.2.1
    have htd := takeDigits_all (natChars n) (natChars_digits n) rest hrest
    rw [show intChars (Int.ofNat n) = natChars n from rfl]
    rw [hc] at htd ⊢
    rw [List.cons_append]
    rw [show parseIntChars (c :: (cs ++ rest))
        = (if c = '-' then
            match takeDigits (cs ++ rest) with
            | ([], _) => none
            | (ds, r) => some (-(digitsToNat ds : Int), r)
          else
            match takeDigits (c :: (cs ++ rest)) with
            | ([], _) => none
            | (ds, r) => some ((digitsToNat ds : Int), r)) from rfl]
    rw [if_neg hneg]
    rw [← List.cons_append, htd]
    simp only [List.map_cons]
    rw [show digitsToNat (((digitVal c).getD 0) :: List.map (fun c => (digitVal c).getD 0) cs)
        = n from by
      rw [show ((digitVal c).getD 0) :: List.map (fun c => (digitVal c).getD 0) cs
          = (c :: cs).map (fun c => (digitVal c).getD 0) from rfl]
      rw [← hc, digitsToNat_map]
      exact foldl_natChars n]
    rfl
  | negSucc m =>
    have htd := takeDigits_all (natChars (m + 1)) (natChars_digits (m + 1)) rest hrest
    obtain ⟨c, cs, hc⟩ := List.exists_cons_of_ne_nil (natChars_ne_nil (m + 1))
    rw [show intChars (Int.negSucc m) = '-' :: natChars (m + 1) from rfl]
    rw [List.cons_append]
    rw [show parseIntChars ('-' :: (natChars (m + 1) ++ rest))
        = (if ('-' : Char) = '-' then
            match takeDigits (natChars (m + 1) ++ rest) with
            | ([], _) => none
            | (ds, r) => some (-(digitsToNat ds : Int), r)
          else
            match takeDigits ('-' :: (natChars (m + 1) ++ rest)) with
            | ([], _) => none
            | (ds, r) => some ((digitsToNat ds : Int), r)) from rfl]
    rw [if_pos rfl, htd]
    rw [hc]
    simp only [List.map_cons]
    rw [show digitsToNat (((digitVal c).getD 0) :: List.map (fun c => (digitVal c).getD 0) cs)
        = m + 1 from by
      rw [show ((digitVal c).getD 0) :: List.map (fun c => (digitVal c).getD 0) cs
          = (c :: cs).map (fun c => (digitVal c).getD 0) from rfl]
      rw [← hc, digitsToNat_map]
      exact foldl_natChars (m + 1)]
    rw [show Int.negSucc m = -((m : Int) + 1) from Int.negSucc_eq m]
    simp

theorem string_eta (s : String) : String.mk s.data = s := by
  cases s
  rfl

theorem head_ne_cons (a b : Char) (l1 l2 : List Char) (h : ¬ a = b) : ¬ (a :: l1 = b :: l2) := by
  intro hco
  injection hco with h1 _
  exact h h1

theorem strOK_facts (s : String) (h : strOK s = true) :
    dq ∉ s.data ∧ sq ∉ s.data ∧ nl ∉ s.data := by
  rw [strOK, List.all_eq_true] at h
  refine ⟨fun hm => ?_, fun hm => ?_, fun hm => ?_⟩ <;>
    simpa using h _ hm

theorem spanNotSq_correct (body : List Char) (rest : List Char) (h : sq ∉ body) :
    spanNotSq (body ++ sq :: rest) = some (body, rest) := by
  induction body with
  | nil => simp [spanNotSq]
  | cons c b ih =>
    have hc : ¬ c = sq := fun hc => h (hc ▸ List.mem_cons_self _ _)
    rw [List.cons_append, spanNotSq, if_neg hc, ih (fun hm => h (List.mem_cons_of_mem _ hm))]

theorem intChars_head_facts (i : Int) : ∃ c cs2, intChars i = c :: cs2 ∧
    ¬ c = sq ∧ ¬ c = '[' ∧ ¬ c = mapOpen ∧ ¬ c = 't' ∧ ¬ c = 'f' ∧ ¬ c = 'n' ∧
    ¬ c = ']' ∧ ¬ c = ',' ∧ ¬ c = mapClose ∧ ¬ c = dq ∧ ¬ c = nl := by
  cases i with
  | ofNat n =>
    obtain ⟨c, cs2, hc⟩ := List.exists_cons_of_ne_nil (natChars_ne_nil n)
    have hcd : (digitVal c).isSome = true :=
      natChars_digits n c (by rw [hc]; exact List.mem_cons_self _ _)
    obtain ⟨f1, f2, f3, f4, f5, f6, f7, f8, f9, f10, f11, f12, f13⟩ := digit_char_facts c hcd
    exact ⟨c, cs2, hc, f2, f8, f7, f9, f10, f11, f5, f4, f6, f1, f3⟩
  | negSucc m =>
    exact ⟨'-', natChars (m + 1), rfl, by decide, by decide, by decide, by decide, by decide,
      by decide, by decide, by decide, by decide, by decide, by decide⟩

theorem litChars_ne_nil (v : Value) : litChars v ≠ [] := by
  cases v with
  | vNull => simp [litChars]
  | vInt n =>
    obtain ⟨c, cs2, hc, _⟩ := intChars_head_facts n
    simp [litChars, hc]
  | vStr s => simp [litChars]
  | vBool b => cases b <;> simp [litChars]
  | vArr xs => simp [litChars]
  | vMap kvs => simp [litChars]

theorem litChars_head_facts (v : Value) : ∃ c cs2, litChars v = c :: cs2 ∧
    ¬ c = ']' ∧ ¬ c = ',' ∧ ¬ c = mapClose := by
  cases v with
  | vNull => exact ⟨'n', _, rfl, by decide, by decide, by decide⟩
  | vInt n =>
    obtain ⟨c, cs2, hc, _, _, _, _, _, _, h7, h8, h9, _⟩ := intChars_head_facts n
    exact ⟨c, cs2, by rw [show litChars (.vInt n) = intChars n from rfl, hc], h7, h8, h9⟩
  | vStr s => exact ⟨sq, _, rfl, by decide, by decide, by decide⟩
  | vBool b =>
    refine ⟨if b then 't' else 'f', if b then ['r', 'u', 'e'] else ['a', 'l', 's', 'e'],
      ?_, ?_, ?_, ?_⟩ <;> cases b <;> decide
  | vArr xs => exact ⟨'[', _, rfl, by decide, by decide, by decide⟩
  | vMap kvs => exact ⟨mapOpen, _, rfl, by decide, by decide, by decide⟩

theorem vNodes_pos (v : Value) : 1 ≤ vNodes v := by
  cases v <;> simp [vNodes]

theorem vNodesList_pos (xs : List Value) : 1 ≤ vNodesList xs := by
  cases xs with
  | nil => simp [vNodesList]
  | cons x t =>
    have := vNodes_pos x
    simp [vNodesList]
    omega

theorem vNodesKV_pos (kvs : List (String × Value)) : 1 ≤ vNodesKV kvs := by
  cases kvs with
  | nil => simp [vNodesKV]
  | cons kv t =>
    have := vNodes_pos kv.2
    simp [vNodesKV]
    omega

mutual

/-- Characters of the structural literal of a safe value avoid the double
quote and the newline, so the double-quoted cell parses unambiguously. -/
theorem litChars_clean : ∀ (v : Value), valSafe v = true →
    ∀ c ∈ litChars v, ¬ c = dq ∧ ¬ c = nl
  | .vNull, _, c, hc => by
    rw [show litChars .vNull = ['n', 'u', 'l', 'l'] from rfl] at hc
    fin_cases hc <;> exact ⟨by decide, by decide⟩
  | .vInt n, _, c, hc => by
    rw [show litChars (.vInt n) = intChars n from rfl] at hc
    cases n with
    | ofNat m =>
      have := natChars_digits m c hc
      obtain ⟨f1, f2, f3, _⟩ := digit_char_facts c this
      exact ⟨f1, f3⟩
    | negSucc m =>
      rw [show intChars (Int.negSucc m) = '-' :: natChars (m + 1) from rfl] at hc
      rcases List.mem_cons.mp hc with h | h
      · subst h
        exact ⟨by decide, by decide⟩
      · have := natChars_digits (m + 1) c h
        obtain ⟨f1, f2, f3, _⟩ := digit_char_facts c this
        exact ⟨f1, f3⟩
  | .vStr s, hs, c, hc => by
    rw [show litChars (.vStr s) = sq :: s.data ++ [sq] from rfl] at hc
    obtain ⟨hdq, hsq, hnl⟩ := strOK_facts s hs
    rcases List.mem_cons.mp hc with h | h
    · subst h
      exact ⟨by decide, by decide⟩
    · rcases List.mem_append.mp h with h2 | h2
      · exact ⟨fun he => hdq (he ▸ h2), fun he => hnl (he ▸ h2)⟩
      · rw [List.mem_singleton] at h2
        subst h2
        exact ⟨by decide, by decide⟩
  | .vBool true, _, c, hc => by
    rw [show litChars (.vBool true) = ['t', 'r', 'u', 'e'] from rfl] at hc
    fin_cases hc <;> exact ⟨by decide, by decide⟩
  | .vBool false, _, c, hc => by
    rw [show litChars (.vBool false) = ['f', 'a', 'l', 's', 'e'] from rfl] at hc
    fin_cases hc <;> exact ⟨by decide, by decide⟩
  | .vArr xs, hs, c, hc => by
    rw [show litChars (.vArr xs) = '[' :: litList xs ++ [']'] from rfl] at hc
    rcases List.mem_cons.mp hc with h | h
    · subst h
      exact ⟨by decide, by decide⟩
    · rcases List.mem_append.mp h with h2 | h2
      · exact litList_clean xs hs c h2
      · rw [List.mem_singleton] at h2
        subst h2
        exact ⟨by decide, by decide⟩
  | .vMap kvs, hs, c, hc => by
    rw [show litChars (.vMap kvs) = mapOpen :: litKVs kvs ++ [mapClose] from rfl] at hc
    rcases List.mem_cons.mp hc with h | h
    · subst h
      exact ⟨by decide, by decide⟩
    · rcases List.mem_append.mp h with h2 | h2
      · exact litKVs_clean kvs hs c h2
      · rw [List.mem_singleton] at h2
        subst h2
        exact ⟨by decide, by decide⟩

theorem litList_clean : ∀ (xs : List Value), valSafeList xs = true →
    ∀ c ∈ litList xs, ¬ c = dq ∧ ¬ c = nl
  | [], _, c, hc => by
    rw [show litList [] = [] from rfl] at hc
    exact absurd hc (List.not_mem_nil c)
  | [x], hs, c, hc => by
    rw [show litList [x] = litChars x from rfl] at hc
    have hx : valSafe x = true := by
      rw [show valSafeList [x] = (valSafe x && valSafeList []) from rfl,
        Bool.and_eq_true] at hs
      exact hs.1
    exact litChars_clean x hx c hc
  | x :: y :: t, hs, c, hc => by
    rw [show litList (x :: y :: t) = litChars x ++ ',' :: litList (y :: t) from rfl] at hc
    rw [show valSafeList (x :: y :: t) = (valSafe x && valSafeList (y :: t)) from rfl,
      Bool.and_eq_true] at hs
    rcases List.mem_append.mp hc with h | h
    · exact litChars_clean x hs.1 c h
    · rcases List.mem_cons.mp h with h2 | h2
      · subst h2
        exact ⟨by decide, by decide⟩
      · exact litList_clean (y :: t) hs.2 c h2

theorem litKVs_clean : ∀ (kvs : List (String × Value)), valSafeKV kvs = true →
    ∀ c ∈ litKVs kvs, ¬ c = dq ∧ ¬ c = nl
  | [], _, c, hc => by
    rw [show litKVs [] = [] from rfl] at hc
    exact absurd hc (List.not_mem_nil c)
  | [kv], hs, c, hc => by
    rw [show litKVs [kv] = sq :: kv.1.data ++ sq :: ':' :: litChars kv.2 from rfl] at hc
    rw [show valSafeKV [kv] = (strOK kv.1 && valSafe kv.2 && valSafeKV []) from rfl,
      Bool.and_eq_true, Bool.and_eq_true] at hs
    obtain ⟨hdq, hsq, hnl⟩ := strOK_facts kv.1 hs.1.1
    rcases List.mem_cons.mp hc with h | h
    · subst h
      exact ⟨by decide, by decide⟩
    · rcases List.mem_append.mp h with h2 | h2
      · exact ⟨fun he => hdq (he ▸ h2), fun he => hnl (he ▸ h2)⟩
      · rcases List.mem_cons.mp h2 with h3 | h3
        · subst h3
          exact ⟨by decide, by decide⟩
        · rcases List.mem_cons.mp h3 with h4 | h4
          · subst h4
            exact ⟨by decide, by decide⟩
          · exact litChars_clean kv.2 hs.1.2 c h4
  | kv :: kv2 :: t, hs, c, hc => by
    rw [show litKVs (kv :: kv2 :: t)
        = (sq :: kv.1.data ++ sq :: ':' :: litChars kv.2) ++ ',' :: litKVs (kv2 :: t)
        from rfl] at hc
    rw [show valSafeKV (kv :: kv2 :: t)
        = (strOK kv.1 && valSafe kv.2 && valSafeKV (kv2 :: t)) from rfl,
      Bool.and_eq_true, Bool.and_eq_true] at hs
    obtain ⟨hdq, hsq, hnl⟩ := strOK_facts kv.1 hs.1.1
    rcases List.mem_append.mp hc with h | h
    · rcases List.mem_cons.mp h with h2 | h2
      · subst h2
        exact ⟨by decide, by decide⟩
      · rcases List.mem_append.mp h2 with h3 | h3
        · exact ⟨fun he => hdq (he ▸ h3), fun he => hnl (he ▸ h3)⟩
        · rcases List.mem_cons.mp h3 with h4 | h4
          · subst h4
            exact ⟨by decide, by decide⟩
          · rcases List.mem_cons.mp h4 with h5 | h5
            · subst h5
              exact ⟨by decide, by decide⟩
            · exact litChars_clean kv.2 hs.1.2 c h5
    · rcases List.mem_cons.mp h with h2 | h2
      · subst h2
        exact ⟨by decide, by decide⟩
      · exact litKVs_clean (kv2 :: t) hs.2 c h2

end

theorem parseLit_step (fuel : Nat) (c : Char) (rest2 : List Char)
    (h1 : ¬ c = sq) (h2 : ¬ c = '[') (h3 : ¬ c = mapOpen)
    (h4 : ¬ (c :: rest2).take 4 = ['t', 'r', 'u', 'e'])
    (h5 : ¬ (c :: rest2).take 5 = ['f', 'a', 'l', 's', 'e'])
    (h6 : ¬ (c :: rest2).take 4 = ['n', 'u', 'l', 'l']) :
    parseLit (fuel + 1) (c :: rest2) =
      match parseIntChars (c :: rest2) with
      | some (n, r2) => some (.vInt n, r2)
      | none => none := by
  simp only [parseLit]
  rw [if_neg h1, if_neg h2, if_neg h3, if_neg h4, if_neg h5, if_neg h6]

/-- The literal parser is a left inverse of the literal encoder on safe
values, given enough fuel, and consumes exactly the literal when the
remainder does not begin with a digit. -/
theorem parse_round_all : ∀ fuel : Nat,
    (∀ (v : Value) (rest : List Char), valSafe v = true → vNodes v ≤ fuel → restOK rest →
      parseLit fuel (litChars v ++ rest) = some (v, rest)) ∧
    (∀ (xs : List Value) (rest : List Char), valSafeList xs = true → vNodesList xs ≤ fuel →
      parseArrItems fuel (litList xs ++ ']' :: rest) = some (.vArr xs, rest)) ∧
    (∀ (kvs : List (String × Value)) (rest : List Char), valSafeKV kvs = true →
      vNodesKV kvs ≤ fuel →
      parseMapItems fuel (litKVs kvs ++ mapClose :: rest) = some (.vMap kvs, rest)) := by
  intro fuel
  induction fuel using Nat.strong_induction_on with
  | _ fuel ih =>
    refine ⟨?_, ?_, ?_⟩
    · intro v rest hsafe hfuel hrest
      obtain ⟨f, rfl⟩ : ∃ f, fuel = f + 1 := ⟨fuel - 1, by have := vNodes_pos v; omega⟩
      cases v with
      | vNull =>
        rw [show litChars .vNull ++ rest = 'n' :: 'u' :: 'l' :: 'l' :: rest from rfl]
        simp only [parseLit]
        rw [if_neg (by decide), if_neg (by decide), if_neg (by decide)]
        rw [show ('n' :: 'u' :: 'l' :: 'l' :: rest).take 4 = ['n', 'u', 'l', 'l'] from rfl]
        rw [if_neg (by decide)]
        rw [show ('n' :: 'u' :: 'l' :: 'l' :: rest).take 5
            = 'n' :: 'u' :: 'l' :: 'l' :: rest.take 1 from rfl]
        rw [if_neg (head_ne_cons _ _ _ _ (by decide))]
        rw [if_pos rfl]
        rfl
      | vInt n =>
        obtain ⟨c, cs2, heq, g1, g2, g3, g4, g5, g6, _, _, _, _, _⟩ := intChars_head_facts n
        rw [show litChars (.vInt n) = intChars n from rfl, heq, List.cons_append]
        have h4 : ¬ (c :: (cs2 ++ rest)).take 4 = ['t', 'r', 'u', 'e'] := by
          rw [show (c :: (cs2 ++ rest)).take 4 = c :: (cs2 ++ rest).take 3 from rfl]
          exact head_ne_cons _ _ _ _ g4
        have h5 : ¬ (c :: (cs2 ++ rest)).take 5 = ['f', 'a', 'l', 's', 'e'] := by
          rw [show (c :: (cs2 ++ rest)).take 5 = c :: (cs2 ++ rest).take 4 from rfl]
          exact head_ne_cons _ _ _ _ g5
        have h6 : ¬ (c :: (cs2 ++ rest)).take 4 = ['n', 'u', 'l', 'l'] := by
          rw [show (c :: (cs2 ++ rest)).take 4 = c :: (cs2 ++ rest).take 3 from rfl]
          exact head_ne_cons _ _ _ _ g6
        rw [parseLit_step f c (cs2 ++ rest) g1 g2 g3 h4 h5 h6]
        rw [← List.cons_append, ← heq]
        rw [parseIntChars_round n rest hrest]
      | vStr s =>
        obtain ⟨hdq, hsq, hnl⟩ := strOK_facts s hsafe
        rw [show litChars (.vStr s) ++ rest = sq :: (s.data ++ sq :: rest) from by
          rw [show litChars (.vStr s) = sq :: s.data ++ [sq] from rfl]
          simp]
        simp only [parseLit]
        rw [if_pos trivial, spanNotSq_correct s.data rest hsq]
      | vBool b =>
        cases b with
        | true =>
          rw [show litChars (.vBool true) ++ rest = 't' :: 'r' :: 'u' :: 'e' :: rest from rfl]
          simp only [parseLit]
          rw [if_neg (by decide), if_neg (by decide), if_neg (by decide)]
          rw [show ('t' :: 'r' :: 'u' :: 'e' :: rest).take 4 = ['t', 'r', 'u', 'e'] from rfl]
          rw [if_pos rfl]
          rfl
        | false =>
          rw [show litChars (.vBool false) ++ rest
              = 'f' :: 'a' :: 'l' :: 's' :: 'e' :: rest from rfl]
          simp only [parseLit]
          rw [if_neg (by decide), if_neg (by decide), if_neg (by decide)]
          rw [show ('f' :: 'a' :: 'l' :: 's' :: 'e' :: rest).take 4
              = ['f', 'a', 'l', 's'] from rfl]
          rw [if_neg (by decide)]
          rw [show ('f' :: 'a' :: 'l' :: 's' :: 'e' :: rest).take 5
              = ['f', 'a', 'l', 's', 'e'] from rfl]
          rw [if_pos rfl]
          rfl
      | vArr xs =>
        rw [show litChars (.vArr xs) ++ rest = '[' :: (litList xs ++ ']' :: rest) from by
          rw [show litChars (.vArr xs) = '[' :: litList xs ++ [']'] from rfl]
          simp]
        simp only [parseLit]
        rw [if_neg (by decide), if_pos trivial]
        exact (ih f (by omega)).2.1 xs rest hsafe (by
          rw [show vNodes (.vArr xs) = 1 + vNodesList xs from rfl] at hfuel
          omega)
      | vMap kvs =>
        rw [show litChars (.vMap kvs) ++ rest = mapOpen :: (litKVs kvs ++ mapClose :: rest)
            from by
          rw [show litChars (.vMap kvs) = mapOpen :: litKVs kvs ++ [mapClose] from rfl]
          simp]
        simp only [parseLit]
        rw [if_neg (by decide), if_neg (by decide), if_pos trivial]
        exact (ih f (by omega)).2.2 kvs rest hsafe (by
          rw [show vNodes (.vMap kvs) = 1 + vNodesKV kvs from rfl] at hfuel
          omega)
    · intro xs rest hsafe hfuel
      obtain ⟨f, rfl⟩ : ∃ f, fuel = f + 1 := ⟨fuel - 1, by have := vNodesList_pos xs; omega⟩
      cases xs with
      | nil =>
        rw [show litList [] ++ ']' :: rest = ']' :: rest from rfl]
        simp only [parseArrItems]
        rw [if_pos trivial]
      | cons x t =>
        have hx : valSafe x = true ∧ valSafeList t = true := by
          rw [show valSafeList (x :: t) = (valSafe x && valSafeList t) from rfl,
            Bool.and_eq_true] at hsafe
          exact hsafe
        obtain ⟨c, cs2, heq, g1, g2, g3⟩ := litChars_head_facts x
        cases t with
        | nil =>
          have hvx : vNodes x ≤ f := by
            rw [show vNodesList [x] = vNodes x + vNodesList [] from rfl,
              show vNodesList ([] : List Value) = 1 from rfl] at hfuel
            omega
          rw [show litList [x] = litChars x from rfl, heq, List.cons_append]
          simp only [parseArrItems]
          rw [if_neg g1]
          rw [show c :: (cs2 ++ ']' :: rest) = litChars x ++ ']' :: rest from by
            rw [heq, List.cons_append]]
          have hli := (ih f (by omega)).1 x (']' :: rest) hx.1 hvx
            (by show digitVal ']' = none; decide)
          simp only [hli]
          simp
        | cons y t2 =>
          have hpos1 := vNodes_pos x
          have hpos2 := vNodesList_pos (y :: t2)
          have hfuel2 : vNodes x + vNodesList (y :: t2) ≤ f + 1 := by
            rw [show vNodesList (x :: y :: t2) = vNodes x + vNodesList (y :: t2) from rfl]
              at hfuel
            exact hfuel
          rw [show litList (x :: y :: t2) ++ ']' :: rest
              = litChars x ++ ',' :: (litList (y :: t2) ++ ']' :: rest) from by
            rw [show litList (x :: y :: t2) = litChars x ++ ',' :: litList (y :: t2) from rfl]
            simp]
          rw [heq, List.cons_append]
          simp only [parseArrItems]
          rw [if_neg g1]
          rw [show c :: (cs2 ++ ',' :: (litList (y :: t2) ++ ']' :: rest))
              = litChars x ++ ',' :: (litList (y :: t2) ++ ']' :: rest) from by
            rw [heq, List.cons_append]]
          have hli := (ih f (by omega)).1 x (',' :: (litList (y :: t2) ++ ']' :: rest)) hx.1
            (by omega) (by show digitVal ',' = none; decide)
          simp only [hli]
          rw [if_pos trivial]
          have harr := (ih f (by omega)).2.1 (y :: t2) rest hx.2 (by omega)
          simp only [harr]
    · intro kvs rest hsafe hfuel
      obtain ⟨f, rfl⟩ : ∃ f, fuel = f + 1 := ⟨fuel - 1, by have := vNodesKV_pos kvs; omega⟩
      cases kvs with
      | nil =>
        rw [show litKVs [] ++ mapClose :: rest = mapClose :: rest from rfl]
        simp only [parseMapItems]
        rw [if_pos trivial]
      | cons kv t =>
        obtain ⟨k, v2⟩ := kv
        have hx : strOK k = true ∧ valSafe v2 = true ∧ valSafeKV t = true := by
          rw [show valSafeKV ((k, v2) :: t) = (strOK k && valSafe v2 && valSafeKV t) from rfl,
            Bool.and_eq_true, Bool.and_eq_true] at hsafe
          exact ⟨hsafe.1.1, hsafe.1.2, hsafe.2⟩
        obtain ⟨hkdq, hksq, hknl⟩ := strOK_facts k hx.1
        have hposv := vNodes_pos v2
        cases t with
        | nil =>
          have hvx : vNodes v2 ≤ f := by
            rw [show vNodesKV [(k, v2)] = vNodes v2 + vNodesKV [] from rfl,
              show vNodesKV ([] : List (String × Value)) = 1 from rfl] at hfuel
            omega
          rw [show litKVs [(k, v2)] ++ mapClose :: rest
              = sq :: (k.data ++ sq :: ':' :: (litChars v2 ++ mapClose :: rest)) from by
            rw [show litKVs [(k, v2)] = sq :: k.data ++ sq :: ':' :: litChars v2 from rfl]
            simp]
          simp only [parseMapItems]
          rw [if_neg (by decide), if_pos trivial]
          have hspan := spanNotSq_correct k.data (':' :: (litChars v2 ++ mapClose :: rest)) hksq
          simp only [hspan]
          rw [if_pos trivial]
          have hli := (ih f (by omega)).1 v2 (mapClose :: rest) hx.2.1 hvx
            (by show digitVal mapClose = none; decide)
          simp only [hli]
          rw [if_neg (by decide)]
          rw [if_pos trivial]
        | cons kv2 t2 =>
          have hpos2 := vNodesKV_pos (kv2 :: t2)
          have hfuel2 : vNodes v2 + vNodesKV (kv2 :: t2) ≤ f + 1 := by
            rw [show vNodesKV ((k, v2) :: kv2 :: t2)
                = vNodes v2 + vNodesKV (kv2 :: t2) from rfl] at hfuel
            exact hfuel
          rw [show litKVs ((k, v2) :: kv2 :: t2) ++ mapClose :: rest
              = sq :: (k.data ++ sq :: ':' ::
                  (litChars v2 ++ ',' :: (litKVs (kv2 :: t2) ++ mapClose :: rest))) from by
            rw [show litKVs ((k, v2) :: kv2 :: t2)
                = (sq :: k.data ++ sq :: ':' :: litChars v2) ++ ',' :: litKVs (kv2 :: t2)
                from rfl]
            simp]
          simp only [parseMapItems]
          rw [if_neg (by decide), if_pos trivial]
          have hspan := spanNotSq_correct k.data
            (':' :: (litChars v2 ++ ',' :: (litKVs (kv2 :: t2) ++ mapClose :: rest))) hksq
          simp only [hspan]
          rw [if_pos trivial]
          have hli := (ih f (by omega)).1 v2
            (',' :: (litKVs (kv2 :: t2) ++ mapClose :: rest)) hx.2.1 (by omega)
            (by show digitVal ',' = none; decide)
          simp only [hli]
          rw [if_pos trivial]
          have hmap := (ih f (by omega)).2.2 (kv2 :: t2) rest hx.2.2 (by omega)
          simp only [hmap]

mutual

/-- The node count of a value never exceeds the length of its literal, so
the length-based fuel of `decodeCell` suffices for the parser. -/
theorem vNodes_le_lit : ∀ (v : Value), vNodes v ≤ (litChars v).length
  | .vNull => by decide
  | .vInt n => by
    rw [show vNodes (.vInt n) = 1 from rfl]
    exact List.length_pos.mpr (litChars_ne_nil (.vInt n))
  | .vStr s => by
    rw [show vNodes (.vStr s) = 1 from rfl]
    exact List.length_pos.mpr (litChars_ne_nil (.vStr s))
  | .vBool b => by cases b <;> decide
  | .vArr xs => by
    have := vNodesList_le_lit xs
    rw [show vNodes (.vArr xs) = 1 + vNodesList xs from rfl,
      show litChars (.vArr xs) = '[' :: litList xs ++ [']'] from rfl]
    simp only [List.length_cons, List.length_append, List.length_singleton]
    omega
  | .vMap kvs => by
    have := vNodesKV_le_lit kvs
    rw [show vNodes (.vMap kvs) = 1 + vNodesKV kvs from rfl,
      show litChars (.vMap kvs) = mapOpen :: litKVs kvs ++ [mapClose] from rfl]
    simp only [List.length_cons, List.length_append, List.length_singleton]
    omega

theorem vNodesList_le_lit : ∀ (xs : List Value), vNodesList xs ≤ (litList xs).length + 1
  | [] => by decide
  | [x] => by
    have := vNodes_le_lit x
    rw [show vNodesList [x] = vNodes x + vNodesList [] from rfl,
      show vNodesList ([] : List Value) = 1 from rfl,
      show litList [x] = litChars x from rfl]
    omega
  | x :: y :: t => by
    have h1 := vNodes_le_lit x
    have h2 := vNodesList_le_lit (y :: t)
    rw [show vNodesList (x :: y :: t) = vNodes x + vNodesList (y :: t) from rfl,
      show litList (x :: y :: t) = litChars x ++ ',' :: litList (y :: t) from rfl]
    simp only [List.length_append, List.length_cons]
    omega

theorem vNodesKV_le_lit : ∀ (kvs : List (String × Value)), vNodesKV kvs ≤ (litKVs kvs).length + 1
  | [] => by decide
  | [kv] => by
    have := vNodes_le_lit kv.2
    rw [show vNodesKV [kv] = vNodes kv.2 + vNodesKV [] from rfl,
      show vNodesKV ([] : List (String × Value)) = 1 from rfl,
      show litKVs [kv] = sq :: kv.1.data ++ sq :: ':' :: litChars kv.2 from rfl]
    simp only [List.length_append, List.length_cons]
    omega
  | kv :: kv2 :: t => by
    have h1 := vNodes_le_lit kv.2
    have h2 := vNodesKV_le_lit (kv2 :: t)
    rw [show vNodesKV (kv :: kv2 :: t) = vNodes kv.2 + vNodesKV (kv2 :: t) from rfl,
      show litKVs (kv :: kv2 :: t)
        = (sq :: kv.1.data ++ sq :: ':' :: litChars kv.2) ++ ',' :: litKVs (kv2 :: t)
        from rfl]
    simp only [List.length_append, List.length_cons]
    omega

end

theorem parseLit_round_full (v : Value) (h : valSafe v = true) :
    parseLit ((litChars v).length + 1) (litChars v) = some (v, []) := by
  have hr := (parse_round_all ((litChars v).length + 1)).1 v [] h
    (by have := vNodes_le_lit v; omega) trivial
  simpa using hr

/-- Column/value pairs whose CSV cell decodes back to the same value: the
value already has the column's declared shape (and for the open blob/other
tags, is a string, the shape a textual cell reads back as). -/
def cellCodable : ColType → Value → Bool
  | .tInt, .vInt _ => true
  | .tFloat, .vInt _ => true
  | .tString, .vStr _ => true
  | .tUuid, .vStr _ => true
  | .tBool, .vBool _ => true
  | .tArray, .vArr _ => true
  | .tMap, .vMap _ => true
  | .tBlob, .vStr _ => true
  | .tOther _, .vStr _ => true
  | _, _ => false

theorem cellCodable_typeMatches (t : ColType) (v : Value) (h : cellCodable t v = true) :
    typeMatches t v = true := by
  cases t <;> cases v <;> first
    | rfl
    | exact Bool.noConfusion h

theorem stripQuotes_quoted (body : List Char) : stripQuotes (dq :: body ++ [dq]) = body := by
  rw [show dq :: body ++ [dq] = dq :: (body ++ [dq]) from rfl, stripQuotes]
  rw [if_pos rfl, if_pos (by rw [List.getLast?_concat])]
  exact List.dropLast_concat

theorem decodeCell_round (c : DataModel) (v : Value) (hcod : cellCodable c.type v = true)
    (hsafe : valSafe v = true) : decodeCell c (cellChars v) = v := by
  obtain ⟨ck, ty, cd, cp⟩ := c
  have hstr : ∀ s : String, Value.vStr (String.mk (stripQuotes (cellChars (.vStr s))))
      = Value.vStr s := by
    intro s
    rw [show cellChars (.vStr s) = dq :: s.data ++ [dq] from rfl, stripQuotes_quoted,
      string_eta]
  cases ty <;> cases v <;> try exact Bool.noConfusion hcod
  case tString.vStr s => exact hstr s
  case tInt.vInt n =>
    have hp : parseIntChars (intChars n) = some (n, []) := by
      have := parseIntChars_round n [] trivial
      simpa using this
    rw [show cellChars (.vInt n) = intChars n from rfl]
    simp only [decodeCell, hp]
  case tFloat.vInt n =>
    have hp : parseIntChars (intChars n) = some (n, []) := by
      have := parseIntChars_round n [] trivial
      simpa using this
    rw [show cellChars (.vInt n) = intChars n from rfl]
    simp only [decodeCell, hp]
  case tArray.vArr xs =>
    rw [show cellChars (.vArr xs) = dq :: litChars (.vArr xs) ++ [dq] from rfl]
    simp only [decodeCell, stripQuotes_quoted]
    simp only [parseLit_round_full (Value.vArr xs) hsafe]
    simp [coerceValue, typeMatches]
  case tMap.vMap kvs =>
    rw [show cellChars (.vMap kvs) = dq :: litChars (.vMap kvs) ++ [dq] from rfl]
    simp only [decodeCell, stripQuotes_quoted]
    simp only [parseLit_round_full (Value.vMap kvs) hsafe]
    simp [coerceValue, typeMatches]
  case tBool.vBool b => cases b <;> rfl
  case tUuid.vStr s => exact hstr s
  case tBlob.vStr s => exact hstr s
  case tOther.vStr s => exact hstr s

/-- Shape of a CSV cell the quote-aware scanner passes through unchanged:
either a plain chunk with no quote and no comma, or one double-quoted span
whose body has no quote. -/
def cellSafeP (cs : List Char) : Prop :=
  (dq ∉ cs ∧ ',' ∉ cs) ∨ ∃ body, cs = dq :: body ++ [dq] ∧ dq ∉ body

theorem splitCellsAux_plain (chunk : List Char) (h : ∀ c ∈ chunk, ¬ c = dq ∧ ¬ c = ',') :
    ∀ rest acc, splitCellsAux (chunk ++ rest) false acc
      = splitCellsAux rest false (chunk.reverse ++ acc) := by
  induction chunk with
  | nil => intro rest acc; simp
  | cons c t ih =>
    intro rest acc
    obtain ⟨h1, h2⟩ := h c (List.mem_cons_self _ _)
    rw [List.cons_append]
    simp only [splitCellsAux]
    rw [if_neg h1, if_neg h2]
    rw [ih (fun c2 hm => h c2 (List.mem_cons_of_mem _ hm)) rest (c :: acc)]
    simp

theorem splitCellsAux_inq (body : List Char) (h : dq ∉ body) :
    ∀ rest acc, splitCellsAux (body ++ rest) true acc
      = splitCellsAux rest true (body.reverse ++ acc) := by
  induction body with
  | nil => intro rest acc; simp
  | cons c t ih =>
    intro rest acc
    have h1 : ¬ c = dq := fun hc => h (hc ▸ List.mem_cons_self _ _)
    rw [List.cons_append]
    simp only [splitCellsAux]
    rw [if_neg h1]
    by_cases h2 : c = ','
    · rw [if_pos h2]
      rw [if_pos trivial]
      rw [ih (fun hm => h (List.mem_cons_of_mem _ hm)) rest (c :: acc)]
      simp
    · rw [if_neg h2]
      rw [ih (fun hm => h (List.mem_cons_of_mem _ hm)) rest (c :: acc)]
      simp

theorem splitCellsAux_cell (chunk : List Char) (h : cellSafeP chunk) :
    ∀ rest acc, splitCellsAux (chunk ++ rest) false acc
      = splitCellsAux rest false (chunk.reverse ++ acc) := by
  rcases h with ⟨h1, h2⟩ | ⟨body, rfl, hb⟩
  · exact splitCellsAux_plain chunk (fun c hc =>
      ⟨fun he => h1 (he ▸ hc), fun he => h2 (he ▸ hc)⟩)
  · intro rest acc
    rw [show (dq :: body ++ [dq]) ++ rest = dq :: (body ++ ([dq] ++ rest)) from by simp]
    simp only [splitCellsAux]
    rw [if_pos trivial]
    rw [show (!false) = true from rfl]
    rw [show [dq] ++ rest = dq :: rest from rfl]
    rw [splitCellsAux_inq body hb (dq :: rest) (dq :: acc)]
    simp only [splitCellsAux]
    rw [if_pos trivial]
    rw [show (!true) = false from rfl]
    simp

theorem splitCells_intercalate (ls : List (List Char)) (h : ∀ l ∈ ls, cellSafeP l)
    (hne : ls ≠ []) : splitCells (intercalateChar ',' ls) = ls := by
  induction ls with
  | nil => exact absurd rfl hne
  | cons x t ih =>
    cases t with
    | nil =>
      rw [show intercalateChar ',' [x] = x from rfl, splitCells]
      rw [show x = x ++ [] from (List.append_nil x).symm]
      rw [splitCellsAux_cell x (h x (List.mem_cons_self _ _)) [] []]
      simp [splitCellsAux]
    | cons y t2 =>
      rw [show intercalateChar ',' (x :: y :: t2) = x ++ ',' :: intercalateChar ',' (y :: t2)
          from rfl, splitCells]
      rw [splitCellsAux_cell x (h x (List.mem_cons_self _ _)) _ []]
      simp only [splitCellsAux]
      rw [if_neg (by decide), if_pos trivial, if_neg (Bool.false_ne_true)]
      rw [show splitCellsAux (intercalateChar ',' (y :: t2)) false []
          = splitCells (intercalateChar ',' (y :: t2)) from rfl]
      rw [ih (fun l hl => h l (List.mem_cons_of_mem _ hl)) (by simp)]
      simp

theorem intChars_mem_facts (i : Int) : ∀ c ∈ intChars i,
    ¬ c = dq ∧ ¬ c = ',' ∧ ¬ c = nl := by
  intro c hc
  cases i with
  | ofNat m =>
    rw [show intChars (Int.ofNat m) = natChars m from rfl] at hc
    obtain ⟨f1, f2, f3, f4, _⟩ := digit_char_facts c (natChars_digits m c hc)
    exact ⟨f1, f4, f3⟩
  | negSucc m =>
    rw [show intChars (Int.negSucc m) = '-' :: natChars (m + 1) from rfl] at hc
    rcases List.mem_cons.mp hc with h | h
    · subst h
      exact ⟨by decide, by decide, by decide⟩
    · obtain ⟨f1, f2, f3, f4, _⟩ := digit_char_facts c (natChars_digits (m + 1) c h)
      exact ⟨f1, f4, f3⟩

theorem cellChars_safe (v : Value) (h : valSafe v = true) : cellSafeP (cellChars v) := by
  cases v with
  | vNull => left; simp [cellChars]
  | vInt n =>
    left
    constructor
    · intro hm
      exact (intChars_mem_facts n dq hm).1 rfl
    · intro hm
      exact (intChars_mem_facts n ',' hm).2.1 rfl
  | vStr s =>
    right
    exact ⟨s.data, rfl, (strOK_facts s h).1⟩
  | vBool b => cases b <;> (left; constructor <;> decide)
  | vArr xs =>
    right
    exact ⟨litChars (.vArr xs), rfl, fun hm => (litChars_clean _ h _ hm).1 rfl⟩
  | vMap kvs =>
    right
    exact ⟨litChars (.vMap kvs), rfl, fun hm => (litChars_clean _ h _ hm).1 rfl⟩

theorem cellChars_no_nl (v : Value) (h : valSafe v = true) : nl ∉ cellChars v := by
  cases v with
  | vNull => simp [cellChars]
  | vInt n =>
    intro hm
    exact (intChars_mem_facts n nl hm).2.2 rfl
  | vStr s =>
    intro hm
    rw [show cellChars (.vStr s) = dq :: s.data ++ [dq] from rfl] at hm
    rcases List.mem_cons.mp hm with h2 | h2
    · exact absurd h2.symm (by decide)
    · rcases List.mem_append.mp h2 with h3 | h3
      · exact (strOK_facts s h).2.2 h3
      · rw [List.mem_singleton] at h3
        exact absurd h3.symm (by decide)
  | vBool b => cases b <;> decide
  | vArr xs =>
    intro hm
    rw [show cellChars (.vArr xs) = dq :: litChars (.vArr xs) ++ [dq] from rfl] at hm
    rcases List.mem_cons.mp hm with h2 | h2
    · exact absurd h2.symm (by decide)
    · rcases List.mem_append.mp h2 with h3 | h3
      · exact (litChars_clean _ h _ h3).2 rfl
      · rw [List.mem_singleton] at h3
        exact absurd h3.symm (by decide)
  | vMap kvs =>
    intro hm
    rw [show cellChars (.vMap kvs) = dq :: litChars (.vMap kvs) ++ [dq] from rfl] at hm
    rcases List.mem_cons.mp hm with h2 | h2
    · exact absurd h2.symm (by decide)
    · rcases List.mem_append.mp h2 with h3 | h3
      · exact (litChars_clean _ h _ h3).2 rfl
      · rw [List.mem_singleton] at h3
        exact absurd h3.symm (by decide)

theorem mem_intercalateChar (sep : Char) (ls : List (List Char)) (c : Char) :
    c ∈ intercalateChar sep ls → c = sep ∨ ∃ l ∈ ls, c ∈ l := by
  induction ls with
  | nil =>
    intro h
    rw [show intercalateChar sep [] = [] from rfl] at h
    exact absurd h (List.not_mem_nil c)
  | cons x t ih =>
    cases t with
    | nil =>
      intro h
      rw [show intercalateChar sep [x] = x from rfl] at h
      exact Or.inr ⟨x, List.mem_cons_self _ _, h⟩
    | cons y t2 =>
      intro h
      rw [show intercalateChar sep (x :: y :: t2) = x ++ sep :: intercalateChar sep (y :: t2)
          from rfl] at h
      rcases List.mem_append.mp h with h2 | h2
      · exact Or.inr ⟨x, List.mem_cons_self _ _, h2⟩
      · rcases List.mem_cons.mp h2 with h3 | h3
        · exact Or.inl h3
        · rcases ih h3 with h4 | ⟨l, hl, hcl⟩
          · exact Or.inl h4
          · exact Or.inr ⟨l, List.mem_cons_of_mem _ hl, hcl⟩

theorem splitOnChar_no_sep (sep : Char) (x : List Char) (h : sep ∉ x) :
    splitOnChar sep x = [x] := by
  induction x with
  | nil => rfl
  | cons c t ih =>
    have h1 : ¬ c = sep := fun he => h (he ▸ List.mem_cons_self _ _)
    simp only [splitOnChar]
    rw [if_neg h1, ih (fun hm => h (List.mem_cons_of_mem _ hm))]

theorem splitOnChar_append (sep : Char) (x r : List Char) (h : sep ∉ x) :
    splitOnChar sep (x ++ sep :: r) = x :: splitOnChar sep r := by
  induction x with
  | nil =>
    simp only [List.nil_append, splitOnChar]
    rw [if_pos trivial]
  | cons c t ih =>
    have h1 : ¬ c = sep := fun he => h (he ▸ List.mem_cons_self _ _)
    rw [List.cons_append]
    simp only [splitOnChar]
    rw [if_neg h1, ih (fun hm => h (List.mem_cons_of_mem _ hm))]

theorem splitOnChar_intercalate (sep : Char) (ls : List (List Char))
    (h : ∀ l ∈ ls, sep ∉ l) (hne : ls ≠ []) :
    splitOnChar sep (intercalateChar sep ls) = ls := by
  induction ls with
  | nil => exact absurd rfl hne
  | cons x t ih =>
    cases t with
    | nil =>
      rw [show intercalateChar sep [x] = x from rfl]
      exact splitOnChar_no_sep sep x (h x (List.mem_cons_self _ _))
    | cons y t2 =>
      rw [show intercalateChar sep (x :: y :: t2) = x ++ sep :: intercalateChar sep (y :: t2)
          from rfl]
      rw [splitOnChar_append sep x _ (h x (List.mem_cons_self _ _))]
      rw [ih (fun l hl => h l (List.mem_cons_of_mem _ hl)) (by simp)]

/-- Is the column name free of the CSV structural characters (double
quote, comma, newline)?  Such headers survive the line/cell split. -/
def keySafe (k : String) : Bool :=
  k.data.all (fun ch => !(ch = dq || ch = ',' || ch = nl))

theorem keySafe_facts (k : String) (h : keySafe k = true) :
    dq ∉ k.data ∧ ',' ∉ k.data ∧ nl ∉ k.data := by
  rw [keySafe, List.all_eq_true] at h
  refine ⟨fun hm => ?_, fun hm => ?_, fun hm => ?_⟩ <;>
    simpa using h _ hm

theorem lookupRow_mapform (model : List DataModel) (vf : DataModel → Value)
    (hnd : (model.map (fun c => c.key)).Nodup) (c : DataModel) (hc : c ∈ model) :
    lookupRow (model.map (fun c2 => (c2.key, vf c2))) c.key = some (vf c) := by
  induction model with
  | nil => cases hc
  | cons c0 ms ih =>
    rw [List.map_cons, List.nodup_cons] at hnd
    rw [List.map_cons, lookupRow]
    rcases List.mem_cons.mp hc with h | h
    · subst h
      rw [if_pos rfl]
    · have hne2 : ¬ ((c0.key, vf c0).1 = c.key) := by
        intro he
        exact hnd.1 (by
          rw [show (c0.key, vf c0).1 = c0.key from rfl] at he
          exact he ▸ List.mem_map_of_mem _ h)
      rw [if_neg hne2]
      exact ih hnd.2 h

theorem lookupCell_mapform (model : List DataModel) (g : DataModel → List Char)
    (hnd : (model.map (fun c => c.key)).Nodup) (c : DataModel) (hc : c ∈ model) :
    lookupCell (model.map (fun c2 => (c2.key, g c2))) c.key = some (g c) := by
  induction model with
  | nil => cases hc
  | cons c0 ms ih =>
    rw [List.map_cons, List.nodup_cons] at hnd
    rw [List.map_cons, lookupCell]
    rcases List.mem_cons.mp hc with h | h
    · subst h
      rw [if_pos rfl]
    · have hne2 : ¬ ((c0.key, g c0).1 = c.key) := by
        intro he
        exact hnd.1 (by
          rw [show (c0.key, g c0).1 = c0.key from rfl] at he
          exact he ▸ List.mem_map_of_mem _ h)
      rw [if_neg hne2]
      exact ih hnd.2 h

theorem headerLine_no_nl (model : List DataModel)
    (hkeys : ∀ c ∈ model, keySafe c.key = true) : nl ∉ headerLine model := by
  intro hm
  rw [headerLine] at hm
  rcases mem_intercalateChar ',' _ nl hm with he | ⟨l, hl, hcl⟩
  · exact absurd he (by decide)
  · obtain ⟨c, hc, rfl⟩ := List.mem_map.mp hl
    exact (keySafe_facts c.key (hkeys c hc)).2.2 hcl

theorem lineOfRow_no_nl (model : List DataModel) (r : Row)
    (h : ∀ c ∈ model, ∀ v, lookupRow r c.key = some v → valSafe v = true) :
    nl ∉ lineOfRow model r := by
  intro hm
  rw [lineOfRow] at hm
  rcases mem_intercalateChar ',' _ nl hm with he | ⟨l, hl, hcl⟩
  · exact absurd he (by decide)
  · obtain ⟨c, hc, rfl⟩ := List.mem_map.mp hl
    rw [cellOfColumn] at hcl
    cases hlr : lookupRow r c.key with
    | none =>
      rw [hlr] at hcl
      exact absurd hcl (List.not_mem_nil nl)
    | some v =>
      rw [hlr] at hcl
      exact cellChars_no_nl v (h c hc v hlr) hcl

theorem rowFromLine_round (model : List DataModel) (vf : DataModel → Value)
    (hnd : (model.map (fun c => c.key)).Nodup) (hne : model ≠ [])
    (hcells : ∀ c ∈ model, cellCodable c.type (vf c) = true ∧ valSafe (vf c) = true) :
    rowFromLine model (model.map (fun c => c.key))
      (lineOfRow model (model.map (fun c2 => (c2.key, vf c2))))
      = model.map (fun c2 => (c2.key, vf c2)) := by
  have hline : lineOfRow model (model.map (fun c2 => (c2.key, vf c2)))
      = intercalateChar ',' (model.map (fun c => cellChars (vf c))) := by
    rw [lineOfRow]
    congr 1
    apply List.map_congr_left
    intro c hc
    rw [cellOfColumn, lookupRow_mapform model vf hnd c hc]
  have hsplit : splitCells (intercalateChar ',' (model.map (fun c => cellChars (vf c))))
      = model.map (fun c => cellChars (vf c)) :=
    splitCells_intercalate _ (by
      intro l hl
      obtain ⟨c, hc, rfl⟩ := List.mem_map.mp hl
      exact cellChars_safe (vf c) (hcells c hc).2) (by
      simp only [ne_eq, List.map_eq_nil_iff]
      exact hne)
  rw [hline]
  simp only [rowFromLine]
  rw [hsplit, List.zip_map']
  apply List.map_congr_left
  intro c hc
  have hl := lookupCell_mapform model (fun c2 => cellChars (vf c2)) hnd c hc
  simp only [hl]
  rw [decodeCell_round c (vf c) (hcells c hc).1 (hcells c hc).2]

theorem header_round (model : List DataModel) (hkeys : ∀ c ∈ model, keySafe c.key = true)
    (hne : model ≠ []) :
    (splitCells (headerLine model)).map String.mk = model.map (fun c => c.key) := by
  rw [headerLine]
  rw [splitCells_intercalate (model.map (fun c => c.key.data)) (by
    intro l hl
    obtain ⟨c, hc, rfl⟩ := List.mem_map.mp hl
    obtain ⟨h1, h2, h3⟩ := keySafe_facts c.key (hkeys c hc)
    exact Or.inl ⟨h1, h2⟩) (by
    simp only [ne_eq, List.map_eq_nil_iff]
    exact hne)]
  rw [List.map_map]
  apply List.map_congr_left
  intro c hc
  exact string_eta c.key

/-- C4 (amended): for rows that instantiate the declared model with safe,
column-codable values (strings free of quote/newline characters, columns
filled at their declared types), `toCSV` followed by the `loadCSV` parsing
path reconstructs the row set exactly, and such rows are already fixed by
the model coercion that the upsert path applies. -/
theorem toCSV_loadCSV_roundtrip (model : List DataModel) (rows : List Row)
    (hne : model ≠ [])
    (hnd : (model.map (fun c => c.key)).Nodup)
    (hkeys : ∀ c ∈ model, keySafe c.key = true)
    (hconf : ∀ r ∈ rows, ∃ vf : DataModel → Value,
      r = model.map (fun c => (c.key, vf c)) ∧
      ∀ c ∈ model, cellCodable c.type (vf c) = true ∧ valSafe (vf c) = true) :
    loadCSVRows model (toCSV model rows true) = rows ∧
    rows.map (coerceRow model) = rows := by
  constructor
  · have hdata : (toCSV model rows true).data
        = intercalateChar nl (headerLine model :: rows.map (lineOfRow model)) := rfl
    have hsplit : splitOnChar nl (toCSV model rows true).data
        = headerLine model :: rows.map (lineOfRow model) := by
      rw [hdata]
      apply splitOnChar_intercalate
      · intro l hl
        rcases List.mem_cons.mp hl with h | h
        · subst h
          exact headerLine_no_nl model hkeys
        · obtain ⟨r, hr, rfl⟩ := List.mem_map.mp h
          obtain ⟨vf, hrf, hcells⟩ := hconf r hr
          apply lineOfRow_no_nl
          intro c hc v hlv
          rw [hrf, lookupRow_mapform model vf hnd c hc] at hlv
          injection hlv with hv
          exact hv ▸ (hcells c hc).2
      · simp
    simp only [loadCSVRows, hsplit]
    rw [header_round model hkeys hne]
    rw [List.map_map]
    have hrows : ∀ r ∈ rows,
        (rowFromLine model (model.map (fun c => c.key)) ∘ lineOfRow model) r = r := by
      intro r hr
      obtain ⟨vf, hrf, hcells⟩ := hconf r hr
      show rowFromLine model (model.map (fun c => c.key)) (lineOfRow model r) = r
      rw [hrf]
      exact rowFromLine_round model vf hnd hne hcells
    have h2 : rows.map (rowFromLine model (model.map (fun c => c.key)) ∘ lineOfRow model)
        = rows.map (fun r => r) := List.map_congr_left hrows
    rw [h2]
    simp
  · have hfix : ∀ r ∈ rows, coerceRow model r = r := by
      intro r hr
      obtain ⟨vf, hrf, hcells⟩ := hconf r hr
      rw [hrf, coerceRow]
      apply List.map_congr_left
      intro c hc
      have hl := lookupRow_mapform model vf hnd c hc
      simp only [hl]
      rw [coerceValue, if_pos (cellCodable_typeMatches c.type (vf c) (hcells c hc).1)]
    have h2 : rows.map (coerceRow model) = rows.map (fun r => r) :=
      List.map_congr_left hfix
    rw [h2]
    simp

/-- Two declared string columns, for the round-trip counterexample. -/
def cexModel : List DataModel :=
  [⟨"s", .tString, none, []⟩, ⟨"t", .tString, none, []⟩]

/-- A row expressible within `cexModel`: its "s" string contains a double
quote followed by a comma. -/
def cexRow : Row :=
  [("s", .vStr (String.mk ['a', Char.ofNat 34, ',', 'b'])), ("t", .vStr "c")]

/-- C4 counterexample: the unescaped quoted-cell encoding is not invertible
on every row expressible within the declared model.  A string holding a
double quote followed by a comma is a legal, already-coerced string-column
value, yet serializing it with `toCSV` and re-reading with the `loadCSV`
parser yields a different row set (the quote flips the scanner's quoting
state, so the comma splits the cell). -/
theorem toCSV_loadCSV_not_inverse :
    cexRow = coerceRow cexModel cexRow ∧
    loadCSVRows cexModel (toCSV cexModel [cexRow] true) ≠ [cexRow] := by
  constructor
  · rfl
  · intro h
    have h2 := congrArg (fun rows => lookupRow (rows.headD []) "s") h
    have h3 : (some (Value.vStr "a") : Option Value)
        = some (Value.vStr (String.mk ['a', Char.ofNat 34, ',', 'b'])) := h2
    injection h3 with h4
    injection h4 with h5
    exact absurd h5 (by decide)

/-- A four-column model exercising int, string, array and map columns. -/
def c4Model : List DataModel :=
  [⟨"id", .tInt, none, []⟩, ⟨"name", .tString, none, []⟩,
   ⟨"tags", .tArray, none, []⟩, ⟨"meta", .tMap, none, []⟩]

/-- Concrete safe values for the columns of `c4Model`. -/
def c4vf (c : DataModel) : Value :=
  if c.key = "id" then .vInt (-42)
  else if c.key = "name" then .vStr "nano sql"
  else if c.key = "tags" then .vArr [.vInt 7, .vStr "x", .vBool true, .vNull]
  else .vMap [("a", .vInt 1), ("b", .vStr "y")]

/-- One concrete row set over `c4Model`. -/
def c4Rows : List Row := [c4Model.map (fun c => (c.key, c4vf c))]

theorem toCSV_loadCSV_roundtrip_witness :
    c4Model ≠ [] ∧ loadCSVRows c4Model (toCSV c4Model c4Rows true) = c4Rows :=
  ⟨by simp [c4Model], (toCSV_loadCSV_roundtrip c4Model c4Rows (by simp [c4Model])
    (by decide) (by decide)
    (by
      intro r hr
      rw [show c4Rows = [c4Model.map (fun c => (c.key, c4vf c))] from rfl,
        List.mem_singleton] at hr
      subst hr
      exact ⟨c4vf, rfl, by decide⟩)).1⟩

end SomeSQLSpec
